import Mathlib

/-!
Formal model of the crate-cache core of the `rust-assistant` service
(`crates/rust-assistant/src/cache.rs` and `src/search.rs`), together with
theorems settling the frozen specification claims.

Conventions of the shallow embedding:
* Byte buffers (`bytes::Bytes`, `Vec<u8>`) are `List Nat` with values below 256.
* Relative paths (`PathBuf`) are lists of components (`List String`); `parent`
  is `List.dropLast`, the leaf is `List.getLast?`, and `starts_with` is
  component-wise list prefix.
* `FnvHashMap` is an association list (`AList`) with unique keys; its
  unspecified iteration order is modelled as insertion order.
* `BTreeSet<PathBuf>` of leaf names is a sorted duplicate-free `List String`
  maintained by `setInsert`.
* `NonZeroUsize` values are `Nat`s; theorems that need positivity carry it as
  a hypothesis, mirroring the `NonZeroUsize` type invariant.
* `usize::MAX` is the explicit constant `USIZE_MAX = 2 ^ 64 - 1`.
* Fallible Rust code (`anyhow::Result`) is `Except String`.
* The tar parser and the `syn` AST parser are external collaborators: a
  `CrateTar` carries the already-parsed entry stream, and the declaration
  indexer that `try_from` feeds with `.rs` sources is a parameter.
-/

set_option linter.unusedVariables false

namespace RustAssistant

/-- A relative path inside a package, as its list of components. -/
abbrev RPath := List String

/-- Association list standing in for `FnvHashMap`. -/
abbrev AList (α β : Type) := List (α × β)

/-- Lookup in a `HashMap`. -/
def lookupA {α β : Type} [DecidableEq α] : AList α β → α → Option β
  | [], _ => none
  | (k, v) :: rest, key => if k = key then some v else lookupA rest key

/-- Model of `HashMap::insert`: replace the value of an existing key, else append. -/
def insertA {α β : Type} [DecidableEq α] : AList α β → α → β → AList α β
  | [], k, v => [(k, v)]
  | (k0, v0) :: rest, k, v =>
    if k0 = k then (k0, v) :: rest else (k0, v0) :: insertA rest k v

/-- Model of `HashMap::entry(k).and_modify(f).or_insert(dflt)`. -/
def entryModify {α β : Type} [DecidableEq α] : AList α β → α → (β → β) → β → AList α β
  | [], k, _, dflt => [(k, dflt)]
  | (k0, v0) :: rest, k, f, dflt =>
    if k0 = k then (k0, f v0) :: rest else (k0, v0) :: entryModify rest k f dflt

/-- Model of `BTreeSet<PathBuf>::insert` on leaf names: ordered, duplicate-free. -/
def setInsert : List String → String → List String
  | [], x => [x]
  | y :: rest, x =>
    if x = y then y :: rest
    else if x < y then x :: y :: rest
    else y :: setInsert rest x

/-- The two encodings a crate file is classified into (`CrateFileDataType`). -/
inductive CrateFileDataType
  | utf8
  | nonUtf8
deriving DecidableEq, Repr

/-- Descriptor of one file: its encoding and byte range in the crate buffer
(`CrateFileDataDesc`). The range `[lo, hi)` is a pair of byte offsets. -/
structure CrateFileDataDesc where
  data_type : CrateFileDataType
  range : Nat × Nat
deriving DecidableEq, Repr

/-- Content returned for a file query (`CrateFileContent`). -/
structure CrateFileContent where
  data_type : CrateFileDataType
  data : List Nat
deriving DecidableEq, Repr

/-- A directory listing (`Directory` / `DirectoryMut`): leaf names of files and
of immediate subdirectories. -/
structure Directory where
  files : List String
  directories : List String
deriving DecidableEq, Repr

/-- The kinds of indexed declarations (`ItemType`). -/
inductive ItemType
  | all
  | struct
  | enum
  | trait
  | implType
  | implTraitForType
  | macroItem
  | attributeMacroItem
  | function
  | typeAlias
deriving DecidableEq, Repr

/-- An indexed declaration (`Item`): original-case name, kind, file and
1-based inclusive line range. -/
structure Item where
  name : String
  type_ : ItemType
  file : RPath
  line_range : Nat × Nat
deriving DecidableEq, Repr

/-- The nine per-kind declaration maps (`SearchIndexMut`), keyed by lowercased
name. -/
structure SearchIndexMut where
  structs : AList String (List Item)
  enums : AList String (List Item)
  traits : AList String (List Item)
  impl_types : AList String (List Item)
  impl_trait_for_types : AList String (List Item)
  macros : AList String (List Item)
  attribute_macros : AList String (List Item)
  functions : AList String (List Item)
  type_aliases : AList String (List Item)
deriving Repr

/-- The empty declaration index (`SearchIndexMut::default`). -/
def SearchIndexMut.empty : SearchIndexMut := ⟨[], [], [], [], [], [], [], [], []⟩

/-- The fully indexed package (`Crate`): byte buffer, file index, directory
index and declaration index. -/
structure Crate where
  data : List Nat
  files_index : AList RPath CrateFileDataDesc
  directories_index : AList RPath Directory
  item_search_index : SearchIndexMut

/-- The constant `usize::MAX`. -/
def USIZE_MAX : Nat := 2 ^ 64 - 1

/-- Model of `Bytes::slice(lo..hi)`: the sub-list of byte offsets `[lo, hi)`. -/
def sliceRange (data : List Nat) (r : Nat × Nat) : List Nat :=
  (data.take r.2).drop r.1

/-- Model of `str::find('\n')` on a byte buffer: index of the first `0x0A` byte. -/
def findNl : List Nat → Option Nat
  | [] => none
  | b :: rest => if b = 10 then some 0 else (findNl rest).map (· + 1)

/-- The first loop of `get_file_by_line_range`: advance `line_start` past
`start_line` newlines (or until none is left), counting lines advanced. -/
def scanStartLoop (s : List Nat) : Nat → Nat → Nat → Nat × Nat
  | 0, line_start, current_line => (line_start, current_line)
  | k + 1, line_start, current_line =>
    match findNl (s.drop line_start) with
    | some pos => scanStartLoop s k (line_start + pos + 1) (current_line + 1)
    | none => (line_start, current_line)

/-- The second loop of `get_file_by_line_range`: advance `line_end` past the
given number of newlines (or until none is left). -/
def scanEndLoop (s : List Nat) : Nat → Nat → Nat
  | 0, line_end => line_end
  | k + 1, line_end =>
    match findNl (s.drop line_end) with
    | some pos => scanEndLoop s k (line_end + pos + 1)
    | none => line_end

/-- Whether a byte is a UTF-8 continuation byte. -/
def isCont (b : Nat) : Bool := 128 ≤ b && b ≤ 191

/-- Strict UTF-8 decoding of a byte list (`std::str::from_utf8` /
`String::from_utf8`): `none` exactly on invalid input; checks continuation
bytes, overlong encodings, surrogates and the `0x10FFFF` bound. -/
def utf8Decode? : List Nat → Option (List Char)
  | [] => some []
  | b :: rest =>
    if b < 128 then (utf8Decode? rest).map (Char.ofNat b :: ·)
    else if b < 194 then none
    else if b ≤ 223 then
      match rest with
      | c1 :: rest2 =>
        if isCont c1 then
          (utf8Decode? rest2).map (Char.ofNat ((b - 192) * 64 + (c1 - 128)) :: ·)
        else none
      | [] => none
    else if b ≤ 239 then
      match rest with
      | c1 :: c2 :: rest2 =>
        if isCont c1 && isCont c2 then
          let cp := (b - 224) * 4096 + (c1 - 128) * 64 + (c2 - 128)
          if 2048 ≤ cp && ¬ (55296 ≤ cp && cp ≤ 57343) then
            (utf8Decode? rest2).map (Char.ofNat cp :: ·)
          else none
        else none
      | _ => none
    else if b ≤ 244 then
      match rest with
      | c1 :: c2 :: c3 :: rest2 =>
        if isCont c1 && isCont c2 && isCont c3 then
          let cp := (b - 240) * 262144 + (c1 - 128) * 4096 + (c2 - 128) * 64 + (c3 - 128)
          if 65536 ≤ cp && cp ≤ 1114111 then
            (utf8Decode? rest2).map (Char.ofNat cp :: ·)
          else none
        else none
      | _ => none
    else none

/-- UTF-8 validity (`std::str::from_utf8(..).is_ok()`). -/
def utf8Valid (bs : List Nat) : Bool := (utf8Decode? bs).isSome

/-- Look up a directory listing (`Crate::read_directory`). -/
def Crate.readDirectory (c : Crate) (path : RPath) : Option Directory :=
  lookupA c.directories_index path

/-- The byte-offset computation at the heart of `get_file_by_line_range`:
run the two scan loops and return the located `[line_start, line_end)`
window, or `none` when it is empty. -/
def lineRangeCore (data : List Nat) (start_line end_line : Nat) : Option (Nat × Nat) :=
  let sc := scanStartLoop data start_line 0 0
  let line_end :=
    if sc.2 < end_line then scanEndLoop data (end_line - sc.2) sc.1
    else data.length
  if sc.1 < line_end then some (sc.1, line_end) else none

/-- Model of `Crate::get_file_by_file_line_range` composed with
`Crate::get_file_by_line_range`. The `FileLineRange` optional bounds map to
the four `RangeBounds` instantiations of the source (`Included`/`Unbounded`
only), so the bounds are carried directly as `Option Nat`s holding
`NonZeroUsize` values. -/
def Crate.getFileByLineRange (c : Crate) (file : RPath) (start? end? : Option Nat) :
    Except String (Option CrateFileContent) :=
  match lookupA c.files_index file with
  | none => .ok none
  | some desc =>
    let data := sliceRange c.data desc.range
    match start?, end? with
    | none, none => .ok (some ⟨desc.data_type, data⟩)
    | _, _ =>
      if desc.data_type = .nonUtf8 then
        .error "Non-UTF8 formatted files do not support line-range querying."
      else if ¬ utf8Valid data then
        .error "invalid utf-8 sequence"
      else
        let start_line := match start? with
          | some n => n - 1
          | none => 0
        let end_line := match end? with
          | some n => n
          | none => USIZE_MAX
        match lineRangeCore data start_line end_line with
        | some (ls, le) => .ok (some ⟨.utf8, (data.take le).drop ls⟩)
        | none => .ok none

/-- Number of `\n` bytes in a buffer. -/
def nlCount (s : List Nat) : Nat := s.count 10

/-- Number of lines of a buffer in the sense of `str::lines`: one per `\n`,
plus a final unterminated line when the buffer does not end in `\n`. -/
def lineCount (s : List Nat) : Nat :=
  nlCount s + (if s ≠ [] ∧ s.getLast? ≠ some 10 then 1 else 0)

/-- Strip one trailing carriage return, as `BufRead::lines` does after
removing the newline. -/
def stripCr (l : List Nat) : List Nat :=
  if l.getLast? = some 13 then l.dropLast else l

/-- The loop body of `BufRead::lines`, with explicit fuel (each iteration
consumes at least one byte, so fuel `bs.length` always suffices; see
`ioLinesGo_fuel`). -/
def ioLinesGo : Nat → List Nat → List (List Nat)
  | _, [] => []
  | 0, _ :: _ => []
  | fuel + 1, b :: l =>
    let bs := b :: l
    let pre := bs.takeWhile (fun x => x ≠ 10)
    if pre.length = bs.length then [pre]
    else stripCr pre :: ioLinesGo fuel (bs.drop (pre.length + 1))

/-- Model of `BufRead::lines` over a byte buffer (`Cursor::lines` in `search_line`),
before per-line UTF-8 decoding: repeatedly `read_until(b'\n')`; a yielded
line has its trailing `\n` removed and, when that `\n` was present, also one
trailing `\r`; a final unterminated line is yielded as read. -/
def ioLines (bs : List Nat) : List (List Nat) := ioLinesGo bs.length bs

/-- The search modes of a `LineQuery` (`SearchMode`). -/
inductive SearchMode
  | plainText
  | regex
deriving DecidableEq, Repr

/-- A line-search query (`LineQuery`). `max_results` carries a
`NonZeroUsize`. -/
structure LineQuery where
  query : String
  mode : SearchMode
  case_sensitive : Bool
  whole_word : Bool
  max_results : Option Nat
  file_ext : String
  path : Option RPath
deriving Repr

/-- A line-search result (`Line`): the decoded line text, its file, 1-based
line number and half-open 1-based column range. -/
structure Line where
  line : List Char
  file : RPath
  line_number : Nat
  column_range : Nat × Nat
deriving DecidableEq, Repr

/-- Model of `str::to_lowercase` (ASCII case folding suffices for this model). -/
def strToLower (s : String) : String := ⟨s.data.map Char.toLower⟩

/-- Model of `str::trim`: strip leading and trailing whitespace. -/
def trimChars (l : List Char) : List Char :=
  ((l.dropWhile (fun c => c.isWhitespace)).reverse.dropWhile
    (fun c => c.isWhitespace)).reverse

/-- Model of `str::split(sep)`: split on every separator occurrence; an empty input
yields one empty piece, like Rust's `split`. -/
def splitOnChar (sep : Char) : List Char → List (List Char)
  | [] => [[]]
  | c :: rest =>
    if c = sep then [] :: splitOnChar sep rest
    else
      match splitOnChar sep rest with
      | [] => [[c]]
      | hd :: tl => (c :: hd) :: tl

/-- The characters `regex_syntax::is_meta_character` holds for: exactly these
get a backslash from `regex::escape`. -/
def isMetaChar (c : Char) : Bool :=
  c == '\\' || c == '.' || c == '+' || c == '*' || c == '?' || c == '(' ||
  c == ')' || c == '|' || c == '[' || c == ']' || c == Char.ofNat 123 ||
  c == Char.ofNat 125 || c == '^' || c == '$' || c == '#' || c == '&' ||
  c == '-' || c == '~'

/-- Model of `regex::escape`: prefix every meta character with a backslash. -/
def regexEscape (s : String) : List Char :=
  s.toList.foldr (fun c acc => if isMetaChar c then '\\' :: c :: acc else c :: acc) []

/-- Token of the fragment of the regex language this model supports: literal
characters, `.`, and the word-boundary assertion `\b`. -/
inductive RTok
  | lit (c : Char)
  | anyChar
  | wordBoundary
deriving DecidableEq, Repr

/-- Model of `RegexBuilder::build`'s parser, restricted to the fragment the
escaped `PlainText` patterns and word-boundary wrapping can produce: literal
characters, escaped punctuation, `.` and `\b`. Any other construct (an
unescaped structural metacharacter, or an escape class such as a backslash
followed by a letter or digit other than `b`) is a compile failure in the
model. On patterns inside the fragment it agrees with the `regex` crate;
patterns outside the fragment never arise from `PlainText` queries. -/
def parsePattern : List Char → Option (List RTok)
  | [] => some []
  | '\\' :: rest =>
    match rest with
    | [] => none
    | c :: rest2 =>
      if c = 'b' then (parsePattern rest2).map (.wordBoundary :: ·)
      else if c.isAlpha || c.isDigit then none
      else (parsePattern rest2).map (.lit c :: ·)
  | c :: rest =>
    if c = '.' then (parsePattern rest).map (.anyChar :: ·)
    else if isMetaChar c then none
    else (parsePattern rest).map (.lit c :: ·)

/-- A compiled pattern: its tokens and the case-insensitive flag. -/
structure CompiledPat where
  toks : List RTok
  ci : Bool
deriving DecidableEq, Repr

/-- Character comparison under the optional case-insensitive flag (ASCII case
folding, as the `regex` crate performs on ASCII letters). -/
def charEq (ci : Bool) (a b : Char) : Bool :=
  if ci then a.toLower == b.toLower else a == b

/-- Regex word character (`\w` over ASCII): letters, digits, underscore. -/
def isWordChar (c : Char) : Bool := c.isAlphanum || c == '_'

/-- The `\b` assertion at a position: exactly one of the neighbouring sides is
a word character (positions outside the text count as non-word). -/
def boundaryAt (line : List Char) (pos : Nat) : Bool :=
  let prev := if pos = 0 then false else
    match line.get? (pos - 1) with
    | some c => isWordChar c
    | none => false
  let cur := match line.get? pos with
    | some c => isWordChar c
    | none => false
  prev != cur

/-- Match the token list at a fixed position; returns the end position. -/
def matchToks (ci : Bool) (line : List Char) : List RTok → Nat → Option Nat
  | [], pos => some pos
  | .lit c :: ts, pos =>
    match line.get? pos with
    | some c2 => if charEq ci c c2 then matchToks ci line ts (pos + 1) else none
    | none => none
  | .anyChar :: ts, pos =>
    match line.get? pos with
    | some c2 => if c2 = '\n' then none else matchToks ci line ts (pos + 1)
    | none => none
  | .wordBoundary :: ts, pos =>
    if boundaryAt line pos then matchToks ci line ts pos else none

/-- Try successive start positions (leftmost match first). -/
def findFrom (ci : Bool) (toks : List RTok) (line : List Char) : Nat → Nat → Option (Nat × Nat)
  | 0, _ => none
  | fuel + 1, pos =>
    match matchToks ci line toks pos with
    | some e => some (pos, e)
    | none => findFrom ci toks line fuel (pos + 1)

/-- Model of `Regex::find`: leftmost match of the compiled pattern in a line. -/
def regexFind (p : CompiledPat) (line : List Char) : Option (Nat × Nat) :=
  findFrom p.ci p.toks line (line.length + 1) 0

/-- Model of `RegexBuilder::new(pat).case_insensitive(ci).build()`. -/
def compileRegex (pat : List Char) (ci : Bool) : Option CompiledPat :=
  (parsePattern pat).map (fun ts => ⟨ts, ci⟩)

/-- The pattern string `search_line` builds: escape the query under
`PlainText`, take it verbatim under `Regex`, and wrap it in `\b … \b` when
`whole_word` is set. -/
def buildPatternChars (q : LineQuery) : List Char :=
  let base := match q.mode with
    | .plainText => regexEscape q.query
    | .regex => q.query.toList
  if q.whole_word then '\\' :: 'b' :: (base ++ ['\\', 'b']) else base

/-- ASCII-case-insensitive string equality (`eq_ignore_ascii_case`). -/
def eqIgnoreCase (a b : String) : Bool :=
  a.data.map Char.toLower == b.data.map Char.toLower

/-- Index of the last `.` in a file name, if any. -/
def lastDotIdx : List Char → Option Nat
  | [] => none
  | c :: rest =>
    match lastDotIdx rest with
    | some i => some (i + 1)
    | none => if c = '.' then some 0 else none

/-- Model of `Path::extension` of a file name: the part after the last `.`, and `none`
when there is no `.` or the only `.` starts the name. -/
def fileExtension (name : String) : Option String :=
  match lastDotIdx name.toList with
  | some i => if i = 0 then none else some ⟨name.toList.drop (i + 1)⟩
  | none => none

/-- Model of `Path::extension` of a relative path: extension of its last component. -/
def pathExtension (p : RPath) : Option String :=
  match p.getLast? with
  | some leaf => fileExtension leaf
  | none => none

/-- Parse the `file_ext` list: split on commas, trim, drop empties. -/
def parseFileExts (s : String) : List String :=
  (((splitOnChar ',' s.data).map (fun cs => (⟨trimChars cs⟩ : String)))).filter
    (fun x => x ≠ "")

/-- The `path` filter of `search_line`: keep files whose path begins with the
query path (component-wise `Path::starts_with`). -/
def pathPass (qpath : Option RPath) (p : RPath) : Bool :=
  match qpath with
  | none => true
  | some qp => qp.isPrefixOf p

/-- The extension filter of `search_line`: with a non-empty filter list, keep
files whose extension matches one entry up to ASCII case; reject files
without an extension. -/
def extPass (exts : List String) (p : RPath) : Bool :=
  if exts.isEmpty then true
  else
    match pathExtension p with
    | some e => exts.any (fun x => eqIgnoreCase e x)
    | none => false

/-- The inner per-line loop of `search_line` over one file's lines: decode
each line (an invalid line aborts the whole query), find the first match,
record it, and break once `max_results` is reached. -/
def scanFileLines (pat : CompiledPat) (fpath : RPath) (maxR : Option Nat) :
    List (List Nat) → Nat → List Line → Except String (List Line)
  | [], _, acc => .ok acc
  | lb :: rest, n, acc =>
    match utf8Decode? lb with
    | none => .error "stream did not contain valid UTF-8"
    | some cs =>
      match regexFind pat cs with
      | none => scanFileLines pat fpath maxR rest (n + 1) acc
      | some (s0, e0) =>
        let acc2 := acc ++ [⟨cs, fpath, n + 1, (s0 + 1, e0 + 1)⟩]
        match maxR with
        | some k =>
          if k ≤ acc2.length then .ok acc2
          else scanFileLines pat fpath maxR rest (n + 1) acc2
        | none => scanFileLines pat fpath maxR rest (n + 1) acc2

/-- The outer per-file loop of `search_line`: apply the path and extension
filters, scan the file's lines, and break once `max_results` is reached. -/
def searchFiles (pat : CompiledPat) (qpath : Option RPath) (exts : List String)
    (data : List Nat) (maxR : Option Nat) :
    List (RPath × CrateFileDataDesc) → List Line → Except String (List Line)
  | [], acc => .ok acc
  | (p, desc) :: rest, acc =>
    if pathPass qpath p = false then searchFiles pat qpath exts data maxR rest acc
    else if extPass exts p = false then searchFiles pat qpath exts data maxR rest acc
    else
      match scanFileLines pat p maxR (ioLines (sliceRange data desc.range)) 0 acc with
      | .error e => .error e
      | .ok acc2 =>
        match maxR with
        | some k =>
          if k ≤ acc2.length then .ok acc2
          else searchFiles pat qpath exts data maxR rest acc2
        | none => searchFiles pat qpath exts data maxR rest acc2

/-- Model of `Crate::search_line`: build the pattern (a compile failure is a query
error), parse the extension list, then run the filtered per-file, per-line
scan with the `max_results` cap. -/
def Crate.searchLine (c : Crate) (q : LineQuery) : Except String (List Line) :=
  let exts := parseFileExts q.file_ext
  match compileRegex (buildPatternChars q) (! q.case_sensitive) with
  | none => .error "regex compile error"
  | some pat => searchFiles pat q.path exts c.data q.max_results c.files_index []

/-- A crate name and version (`CrateVersion`). -/
structure CrateVersion where
  krate : String
  version : String
deriving DecidableEq, Repr

/-- Model of `CrateVersion::root_dir`: the single top-level archive component
`"{name}-{version}"`. -/
def CrateVersion.rootDir (cv : CrateVersion) : String :=
  cv.krate ++ "-" ++ cv.version

/-- One entry of the decompressed tar stream, as the external tar parser
yields it: its path components, whether it is a regular file
(`EntryType::Regular`), and its bytes. -/
structure TarEntry where
  path : List String
  regular : Bool
  data : List Nat
deriving Repr

/-- A crate tarball (`CrateTar`), with the tar parsing — an external
collaborator — already applied to the archive bytes. -/
structure CrateTar where
  crate_version : CrateVersion
  entries : List TarEntry

/-- The declaration indexer `try_from` feeds with each UTF-8 `.rs` file
(`SearchIndexBuilder::update`, i.e. `syn` parsing plus the AST visitor),
supplied as a parameter because the parser is an external collaborator. -/
abbrev Indexer := RPath → List Nat → SearchIndexMut → SearchIndexMut

/-- Intermediate state of the `TryFrom<CrateTar>` loop. -/
structure BuildSt where
  data : List Nat
  files : AList RPath CrateFileDataDesc
  dirs : AList RPath Directory
  idx : SearchIndexMut

/-- One iteration of the entry loop in `TryFrom<CrateTar> for Crate`:
strip the root directory, skip entries with an empty relative path or a
non-regular type, classify the bytes, extend the buffer, record the file
descriptor, and add the leaf to its parent's directory entry. -/
def processEntry (root : String) (indexer : Indexer) (st : BuildSt) (e : TarEntry) : BuildSt :=
  match e.path with
  | [] => st
  | r :: rel =>
    if r = root then
      match rel.getLast? with
      | none => st
      | some leaf =>
        let is_rust_src := match fileExtension leaf with
          | some ext => eqIgnoreCase ext "rs"
          | none => false
        if e.regular then
          let valid := utf8Valid e.data
          let data_type := if valid then CrateFileDataType.utf8 else CrateFileDataType.nonUtf8
          let idx2 := if valid && is_rust_src then indexer rel e.data st.idx else st.idx
          let range := (st.data.length, st.data.length + e.data.length)
          { data := st.data ++ e.data
            files := insertA st.files rel ⟨data_type, range⟩
            dirs := entryModify st.dirs rel.dropLast
              (fun d => { d with files := setInsert d.files leaf })
              ⟨[leaf], []⟩
            idx := idx2 }
        else st
    else st

/-- One iteration of the second pass of `try_from`: a directory key with a
last component contributes that leaf to its parent's subdirectory set. -/
def subStep (acc : AList RPath (List String)) (kv : RPath × Directory) :
    AList RPath (List String) :=
  match kv.1.getLast? with
  | none => acc
  | some leaf => entryModify acc kv.1.dropLast (fun s => setInsert s leaf) [leaf]

/-- The second pass of `try_from`: for each directory key discovered in the
first pass, add its leaf name to its parent's entry of a fresh
subdirectory index. -/
def subIndexOf (dirs : AList RPath Directory) : AList RPath (List String) :=
  dirs.foldl subStep []

/-- One iteration of the third pass of `try_from`: write one collected
subdirectory set into the directory index. -/
def mergeStep (dacc : AList RPath Directory) (kv : RPath × List String) :
    AList RPath Directory :=
  entryModify dacc kv.1 (fun d => { d with directories := kv.2 }) ⟨[], kv.2⟩

/-- The third pass of `try_from`: write each collected subdirectory set into
the directory index, creating entries for keys that held no files. -/
def mergeSubdirs (dirs : AList RPath Directory) (sub : AList RPath (List String)) :
    AList RPath Directory :=
  sub.foldl mergeStep dirs

/-- Model of `TryFrom<CrateTar> for Crate`: run the entry loop, then the two
directory-completion passes, and freeze the result. -/
def Crate.tryFrom (indexer : Indexer) (t : CrateTar) : Crate :=
  let st := t.entries.foldl (processEntry t.crate_version.rootDir indexer)
    ⟨[], [], [], SearchIndexMut.empty⟩
  { data := st.data
    files_index := st.files
    directories_index := mergeSubdirs st.dirs (subIndexOf st.dirs)
    item_search_index := st.idx }

/-- An attribute of a declaration as the visitor sees it: whether its path is
the identifier `doc`, and the line its span starts on. -/
structure DeclAttr where
  isDoc : Bool
  startLine : Nat
deriving DecidableEq, Repr

/-- A top-level declaration as the visitor sees it: name, span lines and
attributes. -/
structure DeclInput where
  name : String
  spanStart : Nat
  spanEnd : Nat
  attrs : List DeclAttr
deriving Repr

/-- The doc-attribute fold of `IndexVisitor::create_item`: lower the start
line to the start of every `doc` attribute. -/
def docFold (init : Nat) (attrs : List DeclAttr) : Nat :=
  attrs.foldl (fun acc a => if a.isDoc then min acc a.startLine else acc) init

/-- Model of `IndexVisitor::create_item`: start line is the declaration's own start
lowered to every doc attribute's start, end line is the declaration's end;
`NonZeroUsize::new(_).unwrap_or(MIN)` turns a zero start into `1` and
`unwrap_or(MAX)` turns a zero end into `usize::MAX`. -/
def createItem (file : RPath) (name : String) (type_ : ItemType)
    (spanStart spanEnd : Nat) (attrs : List DeclAttr) : Item :=
  let start_line := docFold spanStart attrs
  let start_line := if start_line = 0 then 1 else start_line
  let end_line := if spanEnd = 0 then USIZE_MAX else spanEnd
  ⟨name, type_, file, (start_line, end_line)⟩

/-- Model of `entry(key).or_default().push(item)` under the lowercased name. -/
def insertItemInto (m : AList String (List Item)) (item : Item) : AList String (List Item) :=
  entryModify m (strToLower item.name) (fun l => l ++ [item]) [item]

/-- Model of `IndexVisitor::visit_item_struct`: build the item and push it into the
struct map under its lowercased name. -/
def visitItemStruct (idx : SearchIndexMut) (file : RPath) (d : DeclInput) : SearchIndexMut :=
  let item := createItem file d.name .struct d.spanStart d.spanEnd d.attrs
  { idx with structs := insertItemInto idx.structs item }

/-- A declaration-search query (`ItemQuery`). -/
structure ItemQuery where
  type_ : ItemType
  query : String
  path : Option RPath
deriving Repr

/-- Model of `str::contains` on character lists: the needle occurs contiguously. -/
def containsSub : List Char → List Char → Bool
  | needle, [] => needle.isEmpty
  | needle, c :: rest => needle.isPrefixOf (c :: rest) || containsSub needle rest

/-- Items of one per-kind map whose (already lowercased) key contains the
lowercased query as a substring. -/
def valuesMatching (qLower : List Char) (m : AList String (List Item)) : List Item :=
  match m with
  | [] => []
  | (k, vs) :: rest =>
    if containsSub qLower k.toList then vs ++ valuesMatching qLower rest
    else valuesMatching qLower rest

/-- Modelled from the spec: the `ItemQuery`-taking `SearchIndexMut::search`
that `Crate::search_item` calls is absent from the sources (src/search.rs
only contains a two-argument `search(type, query)` without the path filter,
which the call in src/cache.rs line 334 cannot resolve to). Per §4.4 of the
spec: an item matches iff the lowercased query is a substring of the map key,
and when `path` is present the item's `file` must additionally begin with it
(path-component prefix). -/
def filterItemsSpec (qLower : List Char) (path? : Option RPath)
    (m : AList String (List Item)) : List Item :=
  (valuesMatching qLower m).filter (fun it => pathPass path? it.file)

/-- Modelled from the spec: `SearchIndexMut::search` over an `ItemQuery`;
`All` appends the nine kinds in the documented fixed order. -/
def searchIndexSearchSpec (idx : SearchIndexMut) (q : ItemQuery) : List Item :=
  let ql := (strToLower q.query).data
  match q.type_ with
  | .all =>
    filterItemsSpec ql q.path idx.structs ++
    filterItemsSpec ql q.path idx.enums ++
    filterItemsSpec ql q.path idx.traits ++
    filterItemsSpec ql q.path idx.impl_types ++
    filterItemsSpec ql q.path idx.impl_trait_for_types ++
    filterItemsSpec ql q.path idx.macros ++
    filterItemsSpec ql q.path idx.attribute_macros ++
    filterItemsSpec ql q.path idx.functions ++
    filterItemsSpec ql q.path idx.type_aliases
  | .struct => filterItemsSpec ql q.path idx.structs
  | .enum => filterItemsSpec ql q.path idx.enums
  | .trait => filterItemsSpec ql q.path idx.traits
  | .implType => filterItemsSpec ql q.path idx.impl_types
  | .implTraitForType => filterItemsSpec ql q.path idx.impl_trait_for_types
  | .macroItem => filterItemsSpec ql q.path idx.macros
  | .attributeMacroItem => filterItemsSpec ql q.path idx.attribute_macros
  | .function => filterItemsSpec ql q.path idx.functions
  | .typeAlias => filterItemsSpec ql q.path idx.type_aliases

/-- Model of `Crate::search_item`: delegate to the declaration index. -/
def Crate.searchItem (c : Crate) (q : ItemQuery) : List Item :=
  searchIndexSearchSpec c.item_search_index q

/-- The trivial indexer: used for fixtures whose files are not Rust sources,
where `try_from` never invokes the parser. -/
def noIndexer : Indexer := fun _ _ i => i

/-- Fixture version `c-1`. -/
def cvX : CrateVersion := ⟨"c", "1"⟩

/-- Fixture tar: a single regular file at depth 3 (`a/b/f.txt`). -/
def tarDeep : CrateTar := ⟨cvX, [⟨["c-1", "a", "b", "f.txt"], true, []⟩]⟩

/-- The crate built from `tarDeep`. -/
def crateDeep : Crate := Crate.tryFrom noIndexer tarDeep

/-- Fixture tar: a single regular top-level file (`Cargo.toml`). -/
def tarShallow : CrateTar := ⟨cvX, [⟨["c-1", "Cargo.toml"], true, []⟩]⟩

/-- Fixture crate holding one UTF-8 file `f.txt` with content `"a\nb\nc\n"`. -/
def crateLines : Crate :=
  ⟨[97, 10, 98, 10, 99, 10], [(["f.txt"], ⟨.utf8, (0, 6)⟩)], [], .empty⟩

/-- Fixture crate holding one non-UTF-8 file `bin` (bytes `FF FE`). -/
def crateBin : Crate :=
  ⟨[255, 254], [(["bin"], ⟨.nonUtf8, (0, 2)⟩)], [], .empty⟩

/-- Fixture crate holding one file `a.rs` with content `"foobar\nbarfoo\n"`. -/
def crateFooBar : Crate :=
  ⟨[102, 111, 111, 98, 97, 114, 10, 98, 97, 114, 102, 111, 111, 10],
   [(["a.rs"], ⟨.utf8, (0, 14)⟩)], [], .empty⟩

/-- Fixture crate holding one file `a.rs` with content `"foo\n"`. -/
def crateFoo : Crate :=
  ⟨[102, 111, 111, 10], [(["a.rs"], ⟨.utf8, (0, 4)⟩)], [], .empty⟩

/-- Fixture crate holding one file `a.rs` with content `"a.b\naxb\n"`. -/
def crateDots : Crate :=
  ⟨[97, 46, 98, 10, 97, 120, 98, 10], [(["a.rs"], ⟨.utf8, (0, 8)⟩)], [], .empty⟩

/-- Fixture crate holding one file `f.txt` with content `"foo\r\n"`. -/
def crateCrlf : Crate :=
  ⟨[102, 111, 111, 13, 10], [(["f.txt"], ⟨.utf8, (0, 5)⟩)], [], .empty⟩

/-- Fixture crate holding one file `a.txt` with content `"x\nx\nx\n"`. -/
def crateCap : Crate :=
  ⟨[120, 10, 120, 10, 120, 10], [(["a.txt"], ⟨.utf8, (0, 6)⟩)], [], .empty⟩

/-- Fixture crate holding one file `f.txt` whose first line is `"foo"` and
whose second line is the invalid UTF-8 byte `FF`. -/
def crateBadLine : Crate :=
  ⟨[102, 111, 111, 10, 255, 10], [(["f.txt"], ⟨.nonUtf8, (0, 6)⟩)], [], .empty⟩

/-- A plain-text line query with every modifier off. -/
def plainQuery (s : String) : LineQuery :=
  ⟨s, .plainText, true, false, none, "", none⟩

/-- Fixture item: a struct `Foo` declared in `src/a.rs`. -/
def itemFoo : Item := ⟨"Foo", .struct, ["src", "a.rs"], (1, 2)⟩

/-- Fixture crate whose declaration index holds only `itemFoo`. -/
def crateItems : Crate :=
  ⟨[], [], [], { SearchIndexMut.empty with structs := [("foo", [itemFoo])] }⟩

/-- Fixture item query: struct search for `Fo` scoped to `src`. -/
def queryItems : ItemQuery := ⟨.struct, "Fo", some ["src"]⟩

theorem lookupA_entryModify_self {α β : Type} [DecidableEq α]
    (m : AList α β) (k : α) (f : β → β) (dflt : β) :
    lookupA (entryModify m k f dflt) k =
      some (match lookupA m k with | some v => f v | none => dflt) := by
  induction m with
  | nil => simp [entryModify, lookupA]
  | cons kv rest ih =>
    obtain ⟨k0, v0⟩ := kv
    by_cases h : k0 = k
    · subst h; simp [entryModify, lookupA]
    · simp [entryModify, lookupA, h, ih]

theorem lookupA_entryModify_ne {α β : Type} [DecidableEq α]
    (m : AList α β) (k k2 : α) (f : β → β) (dflt : β) (h : k2 ≠ k) :
    lookupA (entryModify m k f dflt) k2 = lookupA m k2 := by
  have h2 : ¬ k = k2 := fun hh => h hh.symm
  induction m with
  | nil => simp [entryModify, lookupA, h2]
  | cons kv rest ih =>
    obtain ⟨k0, v0⟩ := kv
    by_cases h0 : k0 = k
    · subst h0
      simp [entryModify, lookupA, h2]
    · simp [entryModify, lookupA, h0, ih]

theorem lookupA_insertA_self {α β : Type} [DecidableEq α]
    (m : AList α β) (k : α) (v : β) :
    lookupA (insertA m k v) k = some v := by
  induction m with
  | nil => simp [insertA, lookupA]
  | cons kv rest ih =>
    obtain ⟨k0, v0⟩ := kv
    by_cases h : k0 = k
    · subst h; simp [insertA, lookupA]
    · simp [insertA, lookupA, h, ih]

theorem lookupA_insertA_ne {α β : Type} [DecidableEq α]
    (m : AList α β) (k k2 : α) (v : β) (h : k2 ≠ k) :
    lookupA (insertA m k v) k2 = lookupA m k2 := by
  have h2 : ¬ k = k2 := fun hh => h hh.symm
  induction m with
  | nil => simp [insertA, lookupA, h2]
  | cons kv rest ih =>
    obtain ⟨k0, v0⟩ := kv
    by_cases h0 : k0 = k
    · subst h0
      simp [insertA, lookupA, h2]
    · simp [insertA, lookupA, h0, ih]

theorem lookupA_some_mem {α β : Type} [DecidableEq α]
    (m : AList α β) (k : α) (v : β) (h : lookupA m k = some v) : (k, v) ∈ m := by
  induction m with
  | nil => simp [lookupA] at h
  | cons kv rest ih =>
    obtain ⟨k0, v0⟩ := kv
    by_cases h0 : k0 = k
    · subst h0
      simp [lookupA] at h
      simp [h]
    · simp [lookupA, h0] at h
      exact List.mem_cons_of_mem _ (ih h)

theorem lookupA_eq_none_iff {α β : Type} [DecidableEq α] (m : AList α β) (k : α) :
    lookupA m k = none ↔ k ∉ m.map Prod.fst := by
  induction m with
  | nil => simp [lookupA]
  | cons kv rest ih =>
    obtain ⟨k0, v0⟩ := kv
    by_cases h0 : k0 = k
    · subst h0; simp [lookupA]
    · have h1 : ¬ k = k0 := fun hh => h0 hh.symm
      simp [lookupA, h0, ih, h1]

theorem entryModify_keys {α β : Type} [DecidableEq α]
    (m : AList α β) (k : α) (f : β → β) (dflt : β) :
    (entryModify m k f dflt).map Prod.fst =
      if (lookupA m k).isSome then m.map Prod.fst else m.map Prod.fst ++ [k] := by
  induction m with
  | nil => simp [entryModify, lookupA]
  | cons kv rest ih =>
    obtain ⟨k0, v0⟩ := kv
    by_cases h0 : k0 = k
    · subst h0; simp [entryModify, lookupA]
    · simp only [entryModify, lookupA, if_neg h0, List.map_cons, ih]
      by_cases h1 : (lookupA rest k).isSome <;> simp [h1]

theorem entryModify_keysNodup {α β : Type} [DecidableEq α]
    (m : AList α β) (k : α) (f : β → β) (dflt : β)
    (h : (m.map Prod.fst).Nodup) : ((entryModify m k f dflt).map Prod.fst).Nodup := by
  rw [entryModify_keys]
  by_cases h1 : (lookupA m k).isSome
  · simpa [h1]
  · have hk : k ∉ m.map Prod.fst := by
      rw [← lookupA_eq_none_iff]
      exact Option.not_isSome_iff_eq_none.mp h1
    simp [h1, List.nodup_append, h, hk]

theorem setInsert_mem_self (s : List String) (x : String) : x ∈ setInsert s x := by
  induction s with
  | nil => simp [setInsert]
  | cons y rest ih =>
    by_cases h : x = y
    · subst h; simp [setInsert]
    · by_cases h2 : x < y <;> simp [setInsert, h, h2, ih]

theorem setInsert_mem_of_mem (s : List String) (x y : String) (h : y ∈ s) :
    y ∈ setInsert s x := by
  induction s with
  | nil => simp at h
  | cons z rest ih =>
    by_cases h1 : x = z
    · subst h1; simpa [setInsert] using h
    · by_cases h2 : x < z
      · simp [setInsert, h1, h2]
        rcases List.mem_cons.mp h with h3 | h3
        · simp [h3]
        · simp [h3]
      · simp [setInsert, h1, h2]
        rcases List.mem_cons.mp h with h3 | h3
        · simp [h3]
        · simp [ih h3]

theorem findNl_eq_none_iff (l : List Nat) : findNl l = none ↔ 10 ∉ l := by
  induction l with
  | nil => simp [findNl]
  | cons b rest ih =>
    by_cases h : b = 10
    · subst h; simp [findNl]
    · have h1 : ¬ (10 : Nat) = b := fun hh => h hh.symm
      simp [findNl, h, ih, h1]

theorem findNl_some_count (l : List Nat) (p : Nat) (h : findNl l = some p) :
    l.count 10 = (l.drop (p + 1)).count 10 + 1 := by
  induction l generalizing p with
  | nil => simp [findNl] at h
  | cons b rest ih =>
    by_cases hb : b = 10
    · subst hb
      simp [findNl] at h
      subst h
      simp [List.count_cons]
    · simp [findNl, hb] at h
      obtain ⟨p0, hp0, hpe⟩ := h
      subst hpe
      simp [List.count_cons, hb, ih p0 hp0]

theorem findNl_some_lt (l : List Nat) (p : Nat) (h : findNl l = some p) :
    p < l.length := by
  induction l generalizing p with
  | nil => simp [findNl] at h
  | cons b rest ih =>
    by_cases hb : b = 10
    · subst hb
      simp [findNl] at h
      subst h
      simp
    · simp [findNl, hb] at h
      obtain ⟨p0, hp0, hpe⟩ := h
      subst hpe
      simpa using ih p0 hp0

theorem lineCount_nil : lineCount [] = 0 := by simp [lineCount, nlCount]

theorem mem_of_getLast?_eq (l : List Nat) (a : Nat) (h : l.getLast? = some a) : a ∈ l := by
  cases l with
  | nil => simp at h
  | cons b r =>
    rw [List.getLast?_eq_getLast _ (by simp)] at h
    cases h
    exact List.getLast_mem _

theorem lineCount_pos_of_ne_nil (l : List Nat) (h : l ≠ []) : 1 ≤ lineCount l := by
  by_cases h10 : l.getLast? = some 10
  · have hmem : 10 ∈ l := mem_of_getLast?_eq l 10 h10
    have : 0 < l.count 10 := List.count_pos_iff.mpr hmem
    simp only [lineCount, nlCount]
    omega
  · simp [lineCount, nlCount, h, h10]

theorem lineCount_no_nl (l : List Nat) (h : 10 ∉ l) : lineCount l ≤ 1 := by
  have hc : l.count 10 = 0 := List.count_eq_zero.mpr h
  simp only [lineCount, nlCount, hc]
  split <;> omega

theorem getLast?_cons_of_ne_nil {b : Nat} {rest : List Nat} (h : rest ≠ []) :
    (b :: rest).getLast? = rest.getLast? := by
  cases rest with
  | nil => exact absurd rfl h
  | cons c r2 => simp [List.getLast?_cons_cons]

theorem findNl_some_lineCount (l : List Nat) (p : Nat) (h : findNl l = some p) :
    lineCount l = lineCount (l.drop (p + 1)) + 1 := by
  induction l generalizing p with
  | nil => simp [findNl] at h
  | cons b rest ih =>
    by_cases hb : b = 10
    · subst hb
      simp [findNl] at h
      subst h
      cases rest with
      | nil => simp [lineCount, nlCount]
      | cons c r2 =>
        simp only [List.drop_succ_cons, List.drop_zero]
        simp only [lineCount, nlCount, List.count_cons]
        rw [getLast?_cons_of_ne_nil (by simp)]
        simp
        omega
    · simp [findNl, hb] at h
      obtain ⟨p0, hp0, hpe⟩ := h
      subst hpe
      have hrest : rest ≠ [] := by
        intro he
        rw [he] at hp0
        simp [findNl] at hp0
      have hdrop : (b :: rest).drop (p0 + 1 + 1) = rest.drop (p0 + 1) := by simp
      rw [hdrop]
      have h1 : ¬ (10 : Nat) = b := fun hh => hb hh.symm
      have heq : lineCount (b :: rest) = lineCount rest := by
        simp only [lineCount, nlCount, List.count_cons, h1, hb, if_false]
        rw [getLast?_cons_of_ne_nil hrest]
        simp [hrest, hb]
      rw [heq, ih p0 hp0]

theorem scanEndLoop_no_nl (s : List Nat) (k le : Nat) (h : 10 ∉ s.drop le) :
    scanEndLoop s k le = le := by
  cases k with
  | zero => rfl
  | succ k2 => simp [scanEndLoop, (findNl_eq_none_iff _).mpr h]

theorem drop_add_one (s : List Nat) (ls pos : Nat) :
    (s.drop ls).drop (pos + 1) = s.drop (ls + pos + 1) := by
  rw [List.drop_drop]
  congr 1

theorem scanStartLoop_exhaust (s : List Nat) :
    ∀ (k ls cl : Nat), (s.drop ls).count 10 ≤ k →
      10 ∉ s.drop (scanStartLoop s k ls cl).1 ∧
      (scanStartLoop s k ls cl).2 = cl + (s.drop ls).count 10 := by
  intro k
  induction k with
  | zero =>
    intro ls cl h
    have h0 : (s.drop ls).count 10 = 0 := Nat.le_zero.mp h
    have hnin : 10 ∉ s.drop ls := List.count_eq_zero.mp h0
    simp [scanStartLoop, hnin, h0]
  | succ k2 ih =>
    intro ls cl h
    cases hf : findNl (s.drop ls) with
    | none =>
      have hnin : 10 ∉ s.drop ls := (findNl_eq_none_iff _).mp hf
      have h0 : (s.drop ls).count 10 = 0 := List.count_eq_zero.mpr hnin
      simp [scanStartLoop, hf, hnin, h0]
    | some pos =>
      have hcount := findNl_some_count _ _ hf
      rw [drop_add_one] at hcount
      have h2 : (s.drop (ls + pos + 1)).count 10 ≤ k2 := by omega
      have hih := ih (ls + pos + 1) (cl + 1) h2
      simp only [scanStartLoop, hf]
      exact ⟨hih.1, by rw [hih.2]; omega⟩

theorem scanStartLoop_cl (s : List Nat) :
    ∀ (k ls cl : Nat), k ≤ (s.drop ls).count 10 →
      (scanStartLoop s k ls cl).2 = cl + k := by
  intro k
  induction k with
  | zero => intro ls cl h; simp [scanStartLoop]
  | succ k2 ih =>
    intro ls cl h
    cases hf : findNl (s.drop ls) with
    | none =>
      have hnin : 10 ∉ s.drop ls := (findNl_eq_none_iff _).mp hf
      have h0 : (s.drop ls).count 10 = 0 := List.count_eq_zero.mpr hnin
      omega
    | some pos =>
      have hcount := findNl_some_count _ _ hf
      rw [drop_add_one] at hcount
      have h2 : k2 ≤ (s.drop (ls + pos + 1)).count 10 := by omega
      simp only [scanStartLoop, hf]
      rw [ih (ls + pos + 1) (cl + 1) h2]
      omega

theorem scanStartLoop_lt_length (s : List Nat) :
    ∀ (k ls cl : Nat), k < lineCount (s.drop ls) →
      (scanStartLoop s k ls cl).1 < s.length := by
  intro k
  induction k with
  | zero =>
    intro ls cl h
    have hne : s.drop ls ≠ [] := by
      intro he
      rw [he, lineCount_nil] at h
      omega
    have : ¬ s.length ≤ ls := fun hle => hne (List.drop_eq_nil_iff.mpr hle)
    simp only [scanStartLoop]
    omega
  | succ k2 ih =>
    intro ls cl h
    cases hf : findNl (s.drop ls) with
    | none =>
      have hnin : 10 ∉ s.drop ls := (findNl_eq_none_iff _).mp hf
      have h1 := lineCount_no_nl _ hnin
      omega
    | some pos =>
      have hlc := findNl_some_lineCount _ _ hf
      rw [drop_add_one] at hlc
      have h2 : k2 < lineCount (s.drop (ls + pos + 1)) := by omega
      simp only [scanStartLoop, hf]
      exact ih (ls + pos + 1) (cl + 1) h2

theorem count_le_lineCount (l : List Nat) : l.count 10 ≤ lineCount l := by
  simp only [lineCount, nlCount]
  split <;> omega

theorem lineCount_le_count_add_one (l : List Nat) : lineCount l ≤ l.count 10 + 1 := by
  simp only [lineCount, nlCount]
  split <;> omega

theorem getFileByLineRange_eq_core_none (c : Crate) (fp : RPath) (desc : CrateFileDataDesc)
    (hl : lookupA c.files_index fp = some desc) (hdt : desc.data_type = .utf8)
    (hv : utf8Valid (sliceRange c.data desc.range) = true) (s : Nat) :
    Crate.getFileByLineRange c fp (some s) none =
      match lineRangeCore (sliceRange c.data desc.range) (s - 1) USIZE_MAX with
      | some (ls, le) =>
        .ok (some ⟨.utf8, (((sliceRange c.data desc.range).take le).drop ls)⟩)
      | none => .ok none := by
  simp [Crate.getFileByLineRange, hl, hdt, hv]

theorem getFileByLineRange_eq_core_some (c : Crate) (fp : RPath) (desc : CrateFileDataDesc)
    (hl : lookupA c.files_index fp = some desc) (hdt : desc.data_type = .utf8)
    (hv : utf8Valid (sliceRange c.data desc.range) = true) (s e : Nat) :
    Crate.getFileByLineRange c fp (some s) (some e) =
      match lineRangeCore (sliceRange c.data desc.range) (s - 1) e with
      | some (ls, le) =>
        .ok (some ⟨.utf8, (((sliceRange c.data desc.range).take le).drop ls)⟩)
      | none => .ok none := by
  simp [Crate.getFileByLineRange, hl, hdt, hv]

theorem lineRangeCore_out_of_range (data : List Nat) (s endL : Nat)
    (hgt : lineCount data < s) (hend : data.count 10 < endL) :
    lineRangeCore data (s - 1) endL = none := by
  unfold lineRangeCore
  have hd0 : data.drop 0 = data := by simp
  have hcnt : (data.drop 0).count 10 ≤ s - 1 := by
    rw [hd0]
    have := count_le_lineCount data
    omega
  have hexh := scanStartLoop_exhaust data (s - 1) 0 0 hcnt
  have hcl : (scanStartLoop data (s - 1) 0 0).2 = data.count 10 := by
    rw [hexh.2, hd0]
    omega
  have hclt : (scanStartLoop data (s - 1) 0 0).2 < endL := by
    rw [hcl]
    omega
  simp only
  rw [if_pos hclt, scanEndLoop_no_nl _ _ _ hexh.1]
  simp

theorem lineRangeCore_suffix (data : List Nat) (s endL : Nat)
    (hends : endL + 1 ≤ s) (hsl : s ≤ lineCount data) :
    lineRangeCore data (s - 1) endL =
      some ((scanStartLoop data (s - 1) 0 0).1, data.length) ∧
    (scanStartLoop data (s - 1) 0 0).1 < data.length := by
  have hd0 : data.drop 0 = data := by simp
  have hk : s - 1 ≤ (data.drop 0).count 10 := by
    rw [hd0]
    have := lineCount_le_count_add_one data
    omega
  have hcl := scanStartLoop_cl data (s - 1) 0 0 hk
  have hlt := scanStartLoop_lt_length data (s - 1) 0 0 (by rw [hd0]; omega)
  have hnotlt : ¬ (scanStartLoop data (s - 1) 0 0).2 < endL := by
    rw [hcl]
    omega
  refine ⟨?_, hlt⟩
  unfold lineRangeCore
  simp only
  rw [if_neg hnotlt, if_pos hlt]

/-- C3 (amended): on an existing UTF-8 file, a start line beyond the file's
line count yields the not-found-shaped result `Ok(None)` (not an empty
sub-slice), provided the end bound, when present, is at least the start;
and when both bounds are given with `start > end ≥ 1` and `start` still
inside the file, the result is `Ok(Some(...))` holding a NON-empty suffix of
the file (the lines from `start` on), not an empty slice. -/
theorem c3_amended (c : Crate) (fp : RPath) (desc : CrateFileDataDesc)
    (hl : lookupA c.files_index fp = some desc) (hdt : desc.data_type = .utf8)
    (hv : utf8Valid (sliceRange c.data desc.range) = true)
    (hlen : (sliceRange c.data desc.range).length < USIZE_MAX) :
    (∀ (s : Nat) (e? : Option Nat), 1 ≤ s → (∀ e, e? = some e → s ≤ e) →
      lineCount (sliceRange c.data desc.range) < s →
      Crate.getFileByLineRange c fp (some s) e? = .ok none) ∧
    (∀ (s e : Nat), 1 ≤ e → e < s → s ≤ lineCount (sliceRange c.data desc.range) →
      ∃ content, Crate.getFileByLineRange c fp (some s) (some e) = .ok (some content) ∧
        content.data ≠ [] ∧ content.data <:+ sliceRange c.data desc.range) := by
  constructor
  · intro s e? hs he hgt
    cases e? with
    | none =>
      rw [getFileByLineRange_eq_core_none c fp desc hl hdt hv]
      have hend : (sliceRange c.data desc.range).count 10 < USIZE_MAX := by
        have := List.count_le_length (10 : Nat) (sliceRange c.data desc.range)
        omega
      rw [lineRangeCore_out_of_range _ _ _ hgt hend]
    | some e =>
      have hse := he e rfl
      rw [getFileByLineRange_eq_core_some c fp desc hl hdt hv]
      have hend : (sliceRange c.data desc.range).count 10 < e := by
        have := count_le_lineCount (sliceRange c.data desc.range)
        omega
      rw [lineRangeCore_out_of_range _ _ _ hgt hend]
  · intro s e he1 hes hsl
    rw [getFileByLineRange_eq_core_some c fp desc hl hdt hv]
    have hsfx := lineRangeCore_suffix (sliceRange c.data desc.range) s e (by omega) hsl
    rw [hsfx.1]
    refine ⟨_, rfl, ?_, ?_⟩
    · simp only [List.take_length]
      intro hnil
      rw [List.drop_eq_nil_iff] at hnil
      have := hsfx.2
      omega
    · simp only [List.take_length]
      exact List.drop_suffix _ _

/-- C4 (confirmed): on a file recorded as `NonUtf8`, a fully unbounded range
returns the raw bytes with the `NonUtf8` data type, any range with at
least one bound present fails with the binary-guard error, and a path
absent from the files index yields `Ok(None)` for every range. -/
theorem c4_binary_guard (c : Crate) (fp : RPath) :
    (∀ desc : CrateFileDataDesc, lookupA c.files_index fp = some desc →
      desc.data_type = .nonUtf8 →
      Crate.getFileByLineRange c fp none none =
        .ok (some ⟨.nonUtf8, sliceRange c.data desc.range⟩) ∧
      ∀ s? e? : Option Nat, s?.isSome = true ∨ e?.isSome = true →
        Crate.getFileByLineRange c fp s? e? =
          .error "Non-UTF8 formatted files do not support line-range querying.") ∧
    (lookupA c.files_index fp = none →
      ∀ s? e? : Option Nat, Crate.getFileByLineRange c fp s? e? = .ok none) := by
  constructor
  · intro desc hdesc hdt
    constructor
    · simp [Crate.getFileByLineRange, hdesc, hdt]
    · intro s? e? hse
      rcases s? with _ | sv <;> rcases e? with _ | ev
      · simp at hse
      all_goals simp [Crate.getFileByLineRange, hdesc, hdt]
  · intro hnone s? e?
    simp [Crate.getFileByLineRange, hnone]

/-- C3 (counterexample): on the three-line file `"a\nb\nc\n"`, a start line
of 5 (beyond the file) yields `Ok(None)` — the claimed empty sub-slice never
appears, and `Ok(None)` is exactly the not-found outcome the claim rules
out — and `start = 3 > end = 1` yields the non-empty suffix `"c\n"` instead
of an empty result. -/
theorem c3_counterexample :
    Crate.getFileByLineRange crateLines ["f.txt"] (some 5) (some 5) = .ok none ∧
    Crate.getFileByLineRange crateLines ["f.txt"] (some 3) (some 1) =
      .ok (some ⟨.utf8, [99, 10]⟩) := by
  exact ⟨rfl, rfl⟩

theorem c3_amended_witness :
    Crate.getFileByLineRange crateLines ["f.txt"] (some 5) (some 5) = .ok none ∧
    ∃ content, Crate.getFileByLineRange crateLines ["f.txt"] (some 3) (some 1) =
      .ok (some content) ∧ content.data ≠ [] ∧
      content.data <:+ sliceRange crateLines.data (0, 6) :=
  ⟨(c3_amended crateLines ["f.txt"] ⟨.utf8, (0, 6)⟩ rfl rfl (by decide) (by decide)).1
      5 (some 5) (by decide) (by intro e he; cases he; decide) (by decide),
   (c3_amended crateLines ["f.txt"] ⟨.utf8, (0, 6)⟩ rfl rfl (by decide) (by decide)).2
      3 1 (by decide) (by decide) (by decide)⟩

theorem c4_binary_guard_witness :
    Crate.getFileByLineRange crateBin ["bin"] none none =
      .ok (some ⟨.nonUtf8, sliceRange crateBin.data (0, 2)⟩) ∧
    Crate.getFileByLineRange crateBin ["bin"] (some 1) none =
      .error "Non-UTF8 formatted files do not support line-range querying." ∧
    Crate.getFileByLineRange crateBin ["nope"] (some 1) (some 2) = .ok none :=
  ⟨((c4_binary_guard crateBin ["bin"]).1 ⟨.nonUtf8, (0, 2)⟩ rfl rfl).1,
   ((c4_binary_guard crateBin ["bin"]).1 ⟨.nonUtf8, (0, 2)⟩ rfl rfl).2
      (some 1) none (by decide),
   (c4_binary_guard crateBin ["nope"]).2 rfl (some 1) (some 2)⟩

theorem scanFileLines_len {pat : CompiledPat} {fpath : RPath} {k : Nat} :
    ∀ (lines : List (List Nat)) (n : Nat) (acc : List Line), acc.length < k →
      ∀ res, scanFileLines pat fpath (some k) lines n acc = .ok res → res.length ≤ k := by
  intro lines
  induction lines with
  | nil =>
    intro n acc hlt res h
    simp only [scanFileLines, Except.ok.injEq] at h
    subst h
    omega
  | cons lb rest ih =>
    intro n acc hlt res h
    simp only [scanFileLines] at h
    cases hdec : utf8Decode? lb with
    | none =>
      simp only [hdec] at h
      simp at h
    | some cs =>
      simp only [hdec] at h
      cases hfind : regexFind pat cs with
      | none =>
        simp only [hfind] at h
        exact ih _ _ hlt _ h
      | some pr =>
        obtain ⟨s0, e0⟩ := pr
        simp only [hfind] at h
        by_cases hk : k ≤ (acc ++ [(⟨cs, fpath, n + 1, (s0 + 1, e0 + 1)⟩ : Line)]).length
        · rw [if_pos hk] at h
          simp only [Except.ok.injEq] at h
          subst h
          simp only [List.length_append, List.length_cons, List.length_nil]
          omega
        · rw [if_neg hk] at h
          refine ih _ _ ?_ _ h
          simp only [List.length_append, List.length_cons, List.length_nil] at hk ⊢
          omega

theorem searchFiles_len {pat : CompiledPat} {qp : Option RPath} {exts : List String}
    {data : List Nat} {k : Nat} :
    ∀ (files : List (RPath × CrateFileDataDesc)) (acc : List Line), acc.length < k →
      ∀ res, searchFiles pat qp exts data (some k) files acc = .ok res → res.length ≤ k := by
  intro files
  induction files with
  | nil =>
    intro acc hlt res h
    simp only [searchFiles, Except.ok.injEq] at h
    subst h
    omega
  | cons pd rest ih =>
    obtain ⟨p, desc⟩ := pd
    intro acc hlt res h
    simp only [searchFiles] at h
    by_cases hpath : pathPass qp p = false
    · rw [if_pos hpath] at h
      exact ih _ hlt _ h
    · rw [if_neg hpath] at h
      by_cases hext : extPass exts p = false
      · rw [if_pos hext] at h
        exact ih _ hlt _ h
      · rw [if_neg hext] at h
        cases hscan : scanFileLines pat p (some k) (ioLines (sliceRange data desc.range)) 0 acc with
        | error e =>
          simp only [hscan] at h
          simp at h
        | ok acc2 =>
          simp only [hscan] at h
          have hacc2 : acc2.length ≤ k := scanFileLines_len _ _ _ hlt _ hscan
          by_cases hk : k ≤ acc2.length
          · rw [if_pos hk] at h
            simp only [Except.ok.injEq] at h
            subst h
            omega
          · rw [if_neg hk] at h
            refine ih _ ?_ _ h
            omega

/-- C5 (confirmed): when `max_results = Some k` (a `NonZeroUsize`, so
`1 ≤ k`), any successful `search_line` returns at most `k` lines; the cap
breaks both the per-line and the per-file loop. -/
theorem c5_max_results_cap (c : Crate) (q : LineQuery) (k : Nat)
    (hk : q.max_results = some k) (hpos : 1 ≤ k) (res : List Line)
    (h : c.searchLine q = .ok res) : res.length ≤ k := by
  unfold Crate.searchLine at h
  cases hcomp : compileRegex (buildPatternChars q) (! q.case_sensitive) with
  | none =>
    simp only [hcomp] at h
    simp at h
  | some pat =>
    simp only [hcomp] at h
    rw [hk] at h
    exact searchFiles_len _ _ (by simpa using hpos) _ h

theorem c5_max_results_cap_witness :
    ([⟨['x'], ["a.txt"], 1, (1, 2)⟩, ⟨['x'], ["a.txt"], 2, (1, 2)⟩] : List Line).length ≤ 2 :=
  c5_max_results_cap crateCap ⟨"x", .plainText, true, false, some 2, "", none⟩ 2
    rfl (by decide) _ rfl

/-- C6 (confirmed): the compiled pattern escapes metacharacters under
`PlainText` (a literal `"a.b"` matches only itself, while the same query in
`Regex` mode also matches `"axb"`), word-boundary wrapping makes `"foo"`
miss `"foobar"` and `"barfoo"`, clearing `case_sensitive` lets `"Foo"` match
`"foo"`, and a pattern that fails to compile (`"("`) makes `search_line`
return an error. -/
theorem c6_pattern_semantics :
    Crate.searchLine crateFooBar ⟨"foo", .plainText, true, true, none, "", none⟩ =
      .ok [] ∧
    Crate.searchLine crateFoo ⟨"Foo", .plainText, false, false, none, "", none⟩ =
      .ok [⟨['f', 'o', 'o'], ["a.rs"], 1, (1, 4)⟩] ∧
    Crate.searchLine crateFoo ⟨"(", .regex, true, false, none, "", none⟩ =
      .error "regex compile error" ∧
    Crate.searchLine crateDots ⟨"a.b", .plainText, true, false, none, "", none⟩ =
      .ok [⟨['a', '.', 'b'], ["a.rs"], 1, (1, 4)⟩] ∧
    Crate.searchLine crateDots ⟨"a.b", .regex, true, false, none, "", none⟩ =
      .ok [⟨['a', '.', 'b'], ["a.rs"], 1, (1, 4)⟩,
           ⟨['a', 'x', 'b'], ["a.rs"], 2, (1, 4)⟩] :=
  ⟨rfl, rfl, rfl, rfl, rfl⟩

theorem ioLinesGo_nil (f : Nat) : ioLinesGo f [] = [] := by
  cases f <;> rfl

theorem ioLinesGo_fuel :
    ∀ (f1 f2 : Nat) (bs : List Nat), bs.length ≤ f1 → bs.length ≤ f2 →
      ioLinesGo f1 bs = ioLinesGo f2 bs := by
  intro f1
  induction f1 with
  | zero =>
    intro f2 bs h1 h2
    have : bs = [] := List.length_eq_zero.mp (Nat.le_zero.mp h1)
    subst this
    rw [ioLinesGo_nil, ioLinesGo_nil]
  | succ f ih =>
    intro f2 bs h1 h2
    cases bs with
    | nil => rw [ioLinesGo_nil, ioLinesGo_nil]
    | cons b l =>
      cases f2 with
      | zero => simp at h2
      | succ f2p =>
        simp only [ioLinesGo]
        by_cases hif : ((b :: l).takeWhile (fun x => x ≠ 10)).length = (b :: l).length
        · rw [if_pos hif, if_pos hif]
        · rw [if_neg hif, if_neg hif]
          have h1l : l.length + 1 ≤ f + 1 := by simpa using h1
          have h2l : l.length + 1 ≤ f2p + 1 := by simpa using h2
          have hdl : ((b :: l).drop
              (((b :: l).takeWhile (fun x => x ≠ 10)).length + 1)).length ≤ l.length := by
            rw [List.length_drop]
            simp only [List.length_cons]
            omega
          congr 1
          exact ih f2p _ (by omega) (by omega)

theorem takeWhile_append_all {p : Nat → Bool} (a l : List Nat)
    (h : ∀ x ∈ a, p x = true) : (a ++ l).takeWhile p = a ++ l.takeWhile p := by
  induction a with
  | nil => simp
  | cons x rest ih =>
    have hx : p x = true := h x (by simp)
    have ih2 := ih (fun y hy => h y (by simp [hy]))
    simp [List.takeWhile_cons, hx, ih2]

theorem ioLines_crlf (a rest : List Nat) (ha : 10 ∉ a) (hcr : a.getLast? ≠ some 13) :
    ioLines (a ++ 13 :: 10 :: rest) = a :: ioLines rest := by
  have hpre : (a ++ 13 :: 10 :: rest).takeWhile (fun x => x ≠ 10) = a ++ [13] := by
    rw [takeWhile_append_all a _ (fun x hx => by
      simp only [ne_eq, decide_eq_true_eq]
      intro hx10
      exact ha (hx10 ▸ hx))]
    simp [List.takeWhile_cons]
  have hstrip : stripCr (a ++ [13]) = a := by
    unfold stripCr
    rw [if_pos (by simp)]
    simp
  unfold ioLines
  cases hsplit : a ++ 13 :: 10 :: rest with
  | nil => simp at hsplit
  | cons b l =>
    rw [hsplit] at hpre
    have hlenbl : l.length = a.length + 1 + rest.length := by
      have := congrArg List.length hsplit
      simp at this
      omega
    have hdrop : (b :: l).drop ((a ++ [13]).length + 1) = rest := by
      rw [← hsplit]
      simp only [List.length_append, List.length_cons, List.length_nil]
      rw [show a.length + (0 + 1) + 1 = a.length + 2 by omega]
      rw [← List.drop_drop, List.drop_left]
      rfl
    simp only [List.length_cons, ioLinesGo]
    rw [hpre]
    rw [if_neg (by
      simp only [List.length_append, List.length_cons, List.length_nil]
      omega)]
    rw [hstrip, hdrop]
    congr 1
    exact ioLinesGo_fuel _ _ rest (by omega) (by omega)

/-- C9 (counterexample): on a file containing `"foo\r\n"`, the line emitted
by `search_line` is `"foo"` — the carriage return is NOT part of the text,
contrary to the claim. -/
theorem c9_counterexample :
    Crate.searchLine crateCrlf (plainQuery "foo") =
      .ok [⟨['f', 'o', 'o'], ["f.txt"], 1, (1, 4)⟩] ∧
    (['f', 'o', 'o'] : List Char) ≠ ['f', 'o', 'o', '\r'] :=
  ⟨rfl, by decide⟩

/-- C9 (amended): `search_line` reads lines with `BufRead::lines`, which
splits on `\n` and strips the terminator together with one immediately
preceding `\r`; so a `\r\n`-terminated line is emitted WITHOUT the `\r`
(first conjunct: the splitter turns `a ++ "\r\n" ++ rest` into the line `a`;
second conjunct: on the file `"foo\r\n"` the emitted text is `"foo"`). -/
theorem c9_amended :
    (∀ (a rest : List Nat), 10 ∉ a → a.getLast? ≠ some 13 →
      ioLines (a ++ 13 :: 10 :: rest) = a :: ioLines rest) ∧
    Crate.searchLine crateCrlf (plainQuery "foo") =
      .ok [⟨['f', 'o', 'o'], ["f.txt"], 1, (1, 4)⟩] :=
  ⟨ioLines_crlf, rfl⟩

theorem c9_amended_witness :
    ioLines ([102] ++ 13 :: 10 :: []) = [102] :: ioLines [] :=
  c9_amended.1 [102] [] (by decide) (by decide)

theorem scanFileLines_err {pat : CompiledPat} {fpath : RPath} :
    ∀ (lines : List (List Nat)) (n : Nat) (acc : List Line),
      (∃ lb ∈ lines, utf8Decode? lb = none) →
      ∃ e, scanFileLines pat fpath none lines n acc = .error e := by
  intro lines
  induction lines with
  | nil =>
    intro n acc h
    obtain ⟨lb, hm, _⟩ := h
    simp at hm
  | cons lb0 rest ih =>
    intro n acc h
    obtain ⟨lb, hm, hbad⟩ := h
    rcases List.mem_cons.mp hm with heq | hmem
    · subst heq
      refine ⟨"stream did not contain valid UTF-8", ?_⟩
      simp only [scanFileLines, hbad]
    · cases hdec : utf8Decode? lb0 with
      | none =>
        refine ⟨"stream did not contain valid UTF-8", ?_⟩
        simp only [scanFileLines, hdec]
      | some cs =>
        cases hfind : regexFind pat cs with
        | none =>
          obtain ⟨e, he⟩ := ih (n + 1) acc ⟨lb, hmem, hbad⟩
          exact ⟨e, by simp only [scanFileLines, hdec, hfind]; exact he⟩
        | some pr =>
          obtain ⟨s0, e0⟩ := pr
          obtain ⟨e, he⟩ := ih (n + 1)
            (acc ++ [(⟨cs, fpath, n + 1, (s0 + 1, e0 + 1)⟩ : Line)]) ⟨lb, hmem, hbad⟩
          exact ⟨e, by simp only [scanFileLines, hdec, hfind]; exact he⟩

theorem searchFiles_err {pat : CompiledPat} {qp : Option RPath} {exts : List String}
    {data : List Nat} :
    ∀ (files : List (RPath × CrateFileDataDesc)) (acc : List Line)
      (p : RPath) (desc : CrateFileDataDesc), (p, desc) ∈ files →
      pathPass qp p = true → extPass exts p = true →
      (∃ lb ∈ ioLines (sliceRange data desc.range), utf8Decode? lb = none) →
      ∃ e, searchFiles pat qp exts data none files acc = .error e := by
  intro files
  induction files with
  | nil =>
    intro acc p desc hm
    simp at hm
  | cons pd rest ih =>
    intro acc p desc hm hpath hext hbad
    rcases List.mem_cons.mp hm with heq | hmem
    · subst heq
      obtain ⟨e, he⟩ := scanFileLines_err (ioLines (sliceRange data desc.range)) 0 acc hbad
      refine ⟨e, ?_⟩
      simp only [searchFiles]
      rw [if_neg (by simp [hpath]), if_neg (by simp [hext]), he]
    · obtain ⟨p0, d0⟩ := pd
      simp only [searchFiles]
      by_cases hp0 : pathPass qp p0 = false
      · rw [if_pos hp0]
        exact ih acc p desc hmem hpath hext hbad
      · rw [if_neg hp0]
        by_cases he0 : extPass exts p0 = false
        · rw [if_pos he0]
          exact ih acc p desc hmem hpath hext hbad
        · rw [if_neg he0]
          cases hscan : scanFileLines pat p0 none (ioLines (sliceRange data d0.range)) 0 acc with
          | error e => exact ⟨e, rfl⟩
          | ok acc2 => exact ih acc2 p desc hmem hpath hext hbad

/-- C10 (counterexample): with `max_results = Some 1` on a file whose first
line matches and whose second line is invalid UTF-8, `search_line` returns
`Ok` with the one collected match — the cap breaks the loops before the
invalid line is read, so the claimed unconditional `Err` does not hold. -/
theorem c10_counterexample :
    Crate.searchLine crateBadLine ⟨"foo", .plainText, true, false, some 1, "", none⟩ =
      .ok [⟨['f', 'o', 'o'], ["f.txt"], 1, (1, 4)⟩] := rfl

/-- C10 (amended): `search_line` iterates files regardless of their recorded
encoding, and — provided `max_results` is `None`, so that the cap cannot
break the loops first — a line that fails UTF-8 decoding in any file passing
the path and extension filters makes the whole query return `Err`,
discarding matches already collected, instead of skipping that file. -/
theorem c10_amended (c : Crate) (q : LineQuery) (hmax : q.max_results = none)
    (p : RPath) (desc : CrateFileDataDesc) (hmem : (p, desc) ∈ c.files_index)
    (hpath : pathPass q.path p = true)
    (hext : extPass (parseFileExts q.file_ext) p = true)
    (lb : List Nat) (hlb : lb ∈ ioLines (sliceRange c.data desc.range))
    (hbad : utf8Decode? lb = none) :
    ∃ e, Crate.searchLine c q = .error e := by
  unfold Crate.searchLine
  cases hcomp : compileRegex (buildPatternChars q) (! q.case_sensitive) with
  | none =>
    refine ⟨"regex compile error", ?_⟩
    simp only [hcomp]
  | some pat =>
    simp only [hcomp, hmax]
    exact searchFiles_err c.files_index [] p desc hmem hpath hext ⟨lb, hlb, hbad⟩

theorem c10_amended_witness :
    ∃ e, Crate.searchLine crateBadLine (plainQuery "foo") = .error e :=
  c10_amended crateBadLine (plainQuery "foo") rfl ["f.txt"] ⟨.nonUtf8, (0, 6)⟩
    (by decide) rfl rfl [255] (by decide) rfl

/-- The phase-1 invariant of the `try_from` entry loop: every indexed file
has its leaf name recorded in the `files` set of its parent's directory
entry. -/
def FilesDirsInv (files : AList RPath CrateFileDataDesc) (dirs : AList RPath Directory) : Prop :=
  ∀ p : RPath, (lookupA files p).isSome = true →
    ∃ leaf d, p.getLast? = some leaf ∧ lookupA dirs p.dropLast = some d ∧ leaf ∈ d.files

theorem inv_update (files : AList RPath CrateFileDataDesc) (dirs : AList RPath Directory)
    (rel : RPath) (leaf : String) (desc : CrateFileDataDesc)
    (hlast : rel.getLast? = some leaf) (h : FilesDirsInv files dirs) :
    FilesDirsInv (insertA files rel desc)
      (entryModify dirs rel.dropLast
        (fun d => { d with files := setInsert d.files leaf }) ⟨[leaf], []⟩) := by
  intro p hp
  by_cases hpe : p = rel
  · subst hpe
    refine ⟨leaf, ?_⟩
    cases hOld : lookupA dirs p.dropLast with
    | none =>
      refine ⟨⟨[leaf], []⟩, hlast, ?_, by simp⟩
      rw [lookupA_entryModify_self, hOld]
    | some d =>
      refine ⟨{ d with files := setInsert d.files leaf }, hlast, ?_, setInsert_mem_self _ _⟩
      rw [lookupA_entryModify_self, hOld]
  · rw [lookupA_insertA_ne _ _ _ _ hpe] at hp
    obtain ⟨leaf2, d, hl2, hd2, hmem2⟩ := h p hp
    by_cases hpar : p.dropLast = rel.dropLast
    · rw [hpar] at hd2
      refine ⟨leaf2, { d with files := setInsert d.files leaf }, hl2, ?_,
        setInsert_mem_of_mem _ _ _ hmem2⟩
      rw [hpar, lookupA_entryModify_self, hd2]
    · refine ⟨leaf2, d, hl2, ?_, hmem2⟩
      rw [lookupA_entryModify_ne _ _ _ _ _ hpar]
      exact hd2

theorem processEntry_inv (root : String) (ix : Indexer) (st : BuildSt) (e : TarEntry)
    (h : FilesDirsInv st.files st.dirs) :
    FilesDirsInv (processEntry root ix st e).files (processEntry root ix st e).dirs := by
  obtain ⟨epath, ereg, edata⟩ := e
  cases epath with
  | nil => exact h
  | cons r rel =>
    by_cases hr : r = root
    · cases hlast : rel.getLast? with
      | none =>
        simp only [processEntry, if_pos hr, hlast]
        exact h
      | some leaf =>
        cases ereg with
        | false =>
          simp only [processEntry, if_pos hr, hlast, Bool.false_eq_true, if_false]
          exact h
        | true =>
          simp only [processEntry, if_pos hr, hlast, if_true]
          exact inv_update st.files st.dirs rel leaf _ hlast h
    · simp only [processEntry, if_neg hr]
      exact h

theorem foldl_processEntry_inv (root : String) (ix : Indexer) :
    ∀ (ents : List TarEntry) (st : BuildSt), FilesDirsInv st.files st.dirs →
      FilesDirsInv (ents.foldl (processEntry root ix) st).files
        (ents.foldl (processEntry root ix) st).dirs := by
  intro ents
  induction ents with
  | nil => intro st h; exact h
  | cons e rest ih =>
    intro st h
    exact ih _ (processEntry_inv root ix st e h)

theorem subStep_mono :
    ∀ (es : List (RPath × Directory)) (acc : AList RPath (List String)) (k : RPath)
      (sset : List String) (l : String), lookupA acc k = some sset → l ∈ sset →
      ∃ s2, lookupA (es.foldl subStep acc) k = some s2 ∧ l ∈ s2 := by
  intro es
  induction es with
  | nil =>
    intro acc k sset l h hm
    exact ⟨sset, h, hm⟩
  | cons kv rest ih =>
    intro acc k sset l h hm
    obtain ⟨kk, vv⟩ := kv
    cases hlast : kk.getLast? with
    | none =>
      have hstep : subStep acc (kk, vv) = acc := by simp [subStep, hlast]
      rw [List.foldl_cons, hstep]
      exact ih acc k sset l h hm
    | some leaf =>
      have hstep : subStep acc (kk, vv) =
          entryModify acc kk.dropLast (fun s => setInsert s leaf) [leaf] := by
        simp [subStep, hlast]
      rw [List.foldl_cons, hstep]
      by_cases hk : k = kk.dropLast
      · subst hk
        have h2 : lookupA (entryModify acc kk.dropLast (fun s => setInsert s leaf) [leaf])
            kk.dropLast = some (setInsert sset leaf) := by
          rw [lookupA_entryModify_self, h]
        exact ih _ kk.dropLast _ l h2 (setInsert_mem_of_mem _ _ _ hm)
      · have h2 := lookupA_entryModify_ne acc kk.dropLast k
          (fun s => setInsert s leaf) [leaf] hk
        rw [h] at h2
        exact ih _ k sset l h2 hm

theorem subIndexOf_mem_gen :
    ∀ (es : List (RPath × Directory)) (acc : AList RPath (List String)) (k : RPath)
      (v : Directory) (leaf : String), (k, v) ∈ es → k.getLast? = some leaf →
      ∃ s, lookupA (es.foldl subStep acc) k.dropLast = some s ∧ leaf ∈ s := by
  intro es
  induction es with
  | nil =>
    intro acc k v leaf hm
    simp at hm
  | cons kv rest ih =>
    intro acc k v leaf hm hlast
    rcases List.mem_cons.mp hm with heq | hmem
    · have hstep : subStep acc kv =
          entryModify acc k.dropLast (fun s => setInsert s leaf) [leaf] := by
        rw [← heq]
        simp [subStep, hlast]
      rw [List.foldl_cons, hstep]
      cases hacc : lookupA acc k.dropLast with
      | none =>
        have h2 : lookupA (entryModify acc k.dropLast (fun s => setInsert s leaf) [leaf])
            k.dropLast = some [leaf] := by
          rw [lookupA_entryModify_self, hacc]
        exact subStep_mono rest _ _ _ leaf h2 (by simp)
      | some s0 =>
        have h2 : lookupA (entryModify acc k.dropLast (fun s => setInsert s leaf) [leaf])
            k.dropLast = some (setInsert s0 leaf) := by
          rw [lookupA_entryModify_self, hacc]
        exact subStep_mono rest _ _ _ leaf h2 (setInsert_mem_self _ _)
    · rw [List.foldl_cons]
      exact ih _ k v leaf hmem hlast

theorem foldl_subStep_nodup :
    ∀ (es : List (RPath × Directory)) (acc : AList RPath (List String)),
      (acc.map Prod.fst).Nodup → ((es.foldl subStep acc).map Prod.fst).Nodup := by
  intro es
  induction es with
  | nil => intro acc h; exact h
  | cons kv rest ih =>
    intro acc h
    rw [List.foldl_cons]
    refine ih _ ?_
    obtain ⟨kk, vv⟩ := kv
    cases hlast : kk.getLast? with
    | none =>
      have hstep : subStep acc (kk, vv) = acc := by simp [subStep, hlast]
      rw [hstep]
      exact h
    | some leaf =>
      have hstep : subStep acc (kk, vv) =
          entryModify acc kk.dropLast (fun s => setInsert s leaf) [leaf] := by
        simp [subStep, hlast]
      rw [hstep]
      exact entryModify_keysNodup _ _ _ _ h

theorem foldl_mergeStep_preserves :
    ∀ (sub : AList RPath (List String)) (dirs : AList RPath Directory)
      (k : RPath) (d : Directory), lookupA dirs k = some d →
      ∃ d2, lookupA (sub.foldl mergeStep dirs) k = some d2 ∧ d2.files = d.files := by
  intro sub
  induction sub with
  | nil =>
    intro dirs k d h
    exact ⟨d, h, rfl⟩
  | cons kv rest ih =>
    intro dirs k d h
    obtain ⟨k0, s0⟩ := kv
    rw [List.foldl_cons]
    by_cases hk : k = k0
    · subst hk
      have h2 : lookupA (mergeStep dirs (k, s0)) k = some { d with directories := s0 } := by
        unfold mergeStep
        rw [lookupA_entryModify_self, h]
      obtain ⟨d2, hd2, hf⟩ := ih (mergeStep dirs (k, s0)) k _ h2
      exact ⟨d2, hd2, by rw [hf]⟩
    · have h2 : lookupA (mergeStep dirs (k0, s0)) k = some d := by
        unfold mergeStep
        rw [lookupA_entryModify_ne _ _ _ _ _ hk]
        exact h
      exact ih _ k d h2

theorem lookupA_foldl_mergeStep_not_mem :
    ∀ (sub : AList RPath (List String)) (dirs : AList RPath Directory) (k : RPath),
      k ∉ sub.map Prod.fst →
      lookupA (sub.foldl mergeStep dirs) k = lookupA dirs k := by
  intro sub
  induction sub with
  | nil => intro dirs k h; rfl
  | cons kv rest ih =>
    intro dirs k h
    obtain ⟨k0, s0⟩ := kv
    have hk : k ≠ k0 := by
      intro he
      exact h (by simp [he])
    have hrest : k ∉ rest.map Prod.fst := fun hm => h (by simp [hm])
    rw [List.foldl_cons, ih _ k hrest]
    unfold mergeStep
    rw [lookupA_entryModify_ne _ _ _ _ _ hk]

theorem foldl_mergeStep_sets :
    ∀ (sub : AList RPath (List String)) (dirs : AList RPath Directory)
      (k : RPath) (s : List String), (sub.map Prod.fst).Nodup → lookupA sub k = some s →
      ∃ d, lookupA (sub.foldl mergeStep dirs) k = some d ∧ d.directories = s := by
  intro sub
  induction sub with
  | nil =>
    intro dirs k s hnd h
    simp [lookupA] at h
  | cons kv rest ih =>
    intro dirs k s hnd h
    obtain ⟨k0, s0⟩ := kv
    by_cases hk : k0 = k
    · subst hk
      have hs : s0 = s := by simpa [lookupA] using h
      have hnin : k0 ∉ rest.map Prod.fst := by
        simp only [List.map_cons, List.nodup_cons] at hnd
        exact hnd.1
      rw [List.foldl_cons, lookupA_foldl_mergeStep_not_mem rest _ k0 hnin]
      unfold mergeStep
      cases hd : lookupA dirs k0 with
      | none =>
        refine ⟨⟨[], s0⟩, ?_, hs⟩
        rw [lookupA_entryModify_self, hd]
      | some d0 =>
        refine ⟨{ d0 with directories := s0 }, ?_, hs⟩
        rw [lookupA_entryModify_self, hd]
    · have hlk : lookupA rest k = some s := by
        simpa [lookupA, hk] using h
      have hnd2 : (rest.map Prod.fst).Nodup := by
        simp only [List.map_cons, List.nodup_cons] at hnd
        exact hnd.2
      rw [List.foldl_cons]
      exact ih _ k s hnd2 hlk

theorem tryFrom_parent_closure (ix : Indexer) (t : CrateTar) (p : RPath)
    (hp : (lookupA (Crate.tryFrom ix t).files_index p).isSome = true) :
    (∃ leaf d, p.getLast? = some leaf ∧
      lookupA (Crate.tryFrom ix t).directories_index p.dropLast = some d ∧
      leaf ∈ d.files) ∧
    (p.dropLast ≠ [] →
      ∃ leaf2 d2, p.dropLast.getLast? = some leaf2 ∧
        lookupA (Crate.tryFrom ix t).directories_index p.dropLast.dropLast = some d2 ∧
        leaf2 ∈ d2.directories) := by
  have hinv : FilesDirsInv
      (t.entries.foldl (processEntry t.crate_version.rootDir ix)
        ⟨[], [], [], SearchIndexMut.empty⟩).files
      (t.entries.foldl (processEntry t.crate_version.rootDir ix)
        ⟨[], [], [], SearchIndexMut.empty⟩).dirs := by
    apply foldl_processEntry_inv
    intro p0 hp0
    simp [lookupA] at hp0
  obtain ⟨leaf, d, hleaf, hdirs, hmem⟩ := hinv p hp
  constructor
  · obtain ⟨d2, hd2, hf⟩ := foldl_mergeStep_preserves _ _ p.dropLast d hdirs
    exact ⟨leaf, d2, hleaf, hd2, by rw [hf]; exact hmem⟩
  · intro hne
    obtain ⟨leaf2, hleaf2⟩ := Option.isSome_iff_exists.mp (List.getLast?_isSome.mpr hne)
    have hdmem := lookupA_some_mem _ _ _ hdirs
    obtain ⟨sset, hs, hsm⟩ := subIndexOf_mem_gen _ [] p.dropLast d leaf2 hdmem hleaf2
    have hnd := foldl_subStep_nodup
      (t.entries.foldl (processEntry t.crate_version.rootDir ix)
        ⟨[], [], [], SearchIndexMut.empty⟩).dirs [] (by simp)
    obtain ⟨d2, hd2, hdir⟩ := foldl_mergeStep_sets _ _ p.dropLast.dropLast sset hnd hs
    exact ⟨leaf2, d2, hleaf2, hd2, by rw [hdir]; exact hsm⟩

/-- C1 (counterexample): building from a tar whose only regular file is
`a/b/f.txt` puts the file in the files index, yet its ancestor `""` (the
empty root, a prefix of every path) is NOT a key of the directories index —
the ancestor-completion pass runs once, not transitively. -/
theorem c1_counterexample :
    (lookupA crateDeep.files_index ["a", "b", "f.txt"]).isSome = true ∧
    ([] : RPath) <+: ["a", "b", "f.txt"] ∧
    lookupA crateDeep.directories_index [] = none :=
  ⟨rfl, ⟨["a", "b", "f.txt"], rfl⟩, rfl⟩

/-- C1 (amended): after `Crate::try_from`, for every path `p` in the files
index, the immediate parent of `p` is a key of the directories index with
`p`'s leaf in its `files` set, and — when that parent is non-empty — the
grandparent is a key with the parent's leaf in its `subdirectories` set.
Ancestors at distance three or more (including the empty root when every
file lies at depth ≥ 3) can be missing, because the ancestor-completion
pass runs once over the first-phase keys instead of transitively. -/
theorem c1_amended (ix : Indexer) (t : CrateTar) (p : RPath)
    (hp : (lookupA (Crate.tryFrom ix t).files_index p).isSome = true) :
    (∃ leaf d, p.getLast? = some leaf ∧
      lookupA (Crate.tryFrom ix t).directories_index p.dropLast = some d ∧
      leaf ∈ d.files) ∧
    (p.dropLast ≠ [] →
      ∃ leaf2 d2, p.dropLast.getLast? = some leaf2 ∧
        lookupA (Crate.tryFrom ix t).directories_index p.dropLast.dropLast = some d2 ∧
        leaf2 ∈ d2.directories) :=
  tryFrom_parent_closure ix t p hp

theorem c1_amended_witness :
    (∃ leaf d, (["a", "b", "f.txt"] : RPath).getLast? = some leaf ∧
      lookupA (Crate.tryFrom noIndexer tarDeep).directories_index
        (["a", "b", "f.txt"] : RPath).dropLast = some d ∧ leaf ∈ d.files) ∧
    (∃ leaf2 d2, (["a", "b", "f.txt"] : RPath).dropLast.getLast? = some leaf2 ∧
      lookupA (Crate.tryFrom noIndexer tarDeep).directories_index
        (["a", "b", "f.txt"] : RPath).dropLast.dropLast = some d2 ∧
      leaf2 ∈ d2.directories) :=
  ⟨(c1_amended noIndexer tarDeep ["a", "b", "f.txt"] rfl).1,
   (c1_amended noIndexer tarDeep ["a", "b", "f.txt"] rfl).2 (by decide)⟩

/-- C8 (counterexample): the package built from `tarDeep` holds a regular
file with a non-empty relative path, yet `read_directory("")` returns
`None` — the root directory entry is not guaranteed to exist. -/
theorem c8_counterexample :
    (lookupA crateDeep.files_index ["a", "b", "f.txt"]).isSome = true ∧
    crateDeep.readDirectory [] = none :=
  ⟨rfl, rfl⟩

/-- C8 (amended): the root listing exists whenever the package holds a file
at depth at most two (in particular whenever a top-level file such as the
crate manifest is present); for packages whose files all lie at depth ≥ 3
it can be absent. -/
theorem c8_amended (ix : Indexer) (t : CrateTar) (p : RPath)
    (hp : (lookupA (Crate.tryFrom ix t).files_index p).isSome = true)
    (hlen : p.length ≤ 2) :
    ∃ d, (Crate.tryFrom ix t).readDirectory [] = some d := by
  obtain ⟨⟨leaf, d, hleaf, hdirs, _⟩, hsub⟩ := tryFrom_parent_closure ix t p hp
  cases p with
  | nil => simp at hleaf
  | cons a rest =>
    cases rest with
    | nil =>
      exact ⟨d, by simpa [Crate.readDirectory] using hdirs⟩
    | cons b rest2 =>
      cases rest2 with
      | nil =>
        obtain ⟨leaf2, d2, hl2, hd2, hm2⟩ := hsub (by simp)
        exact ⟨d2, by simpa [Crate.readDirectory] using hd2⟩
      | cons cc rest3 => simp at hlen

theorem c8_amended_witness :
    ∃ d, (Crate.tryFrom noIndexer tarShallow).readDirectory [] = some d :=
  c8_amended noIndexer tarShallow ["Cargo.toml"] rfl (by decide)

theorem mem_filterItemsSpec_path {ql : List Char} {pp : RPath}
    {m : AList String (List Item)} {it : Item}
    (h : it ∈ filterItemsSpec ql (some pp) m) : pp <+: it.file := by
  unfold filterItemsSpec at h
  have h2 := (List.mem_filter.mp h).2
  simp only [pathPass] at h2
  exact List.isPrefixOf_iff_prefix.mp h2

/-- C2 (confirmed, spec-modelled): in declaration search with a present
`path`, every returned item's `file` begins with that path as a
path-component prefix — items outside the prefix are never returned. The
`ItemQuery`-taking `search` is absent from src/ (the call in
`Crate::search_item` cannot resolve to the two-argument `search` that
src/search.rs contains), so it is modelled from the spec's match rule. -/
theorem c2_path_scope (c : Crate) (q : ItemQuery) (pp : RPath)
    (hq : q.path = some pp) (it : Item) (hit : it ∈ c.searchItem q) :
    pp <+: it.file := by
  obtain ⟨ty, qs, qpath⟩ := q
  simp only at hq
  subst hq
  unfold Crate.searchItem searchIndexSearchSpec at hit
  cases ty with
  | all =>
    simp only [List.mem_append] at hit
    rcases hit with ((((((((h | h) | h) | h) | h) | h) | h) | h) | h) <;>
      exact mem_filterItemsSpec_path h
  | struct => exact mem_filterItemsSpec_path hit
  | enum => exact mem_filterItemsSpec_path hit
  | trait => exact mem_filterItemsSpec_path hit
  | implType => exact mem_filterItemsSpec_path hit
  | implTraitForType => exact mem_filterItemsSpec_path hit
  | macroItem => exact mem_filterItemsSpec_path hit
  | attributeMacroItem => exact mem_filterItemsSpec_path hit
  | function => exact mem_filterItemsSpec_path hit
  | typeAlias => exact mem_filterItemsSpec_path hit

theorem c2_path_scope_witness : (["src"] : RPath) <+: itemFoo.file :=
  c2_path_scope crateItems queryItems ["src"] rfl itemFoo (by decide)

theorem docFold_le_init : ∀ (attrs : List DeclAttr) (init : Nat),
    docFold init attrs ≤ init := by
  intro attrs
  induction attrs with
  | nil => intro init; simp [docFold]
  | cons a rest ih =>
    intro init
    simp only [docFold, List.foldl_cons]
    by_cases ha : a.isDoc
    · simp only [ha, if_true]
      exact le_trans (ih _) (Nat.min_le_left _ _)
    · simp only [ha, if_false]
      exact ih init

theorem docFold_le_doc : ∀ (attrs : List DeclAttr) (init : Nat) (a : DeclAttr),
    a ∈ attrs → a.isDoc = true → docFold init attrs ≤ a.startLine := by
  intro attrs
  induction attrs with
  | nil => intro init a hm; simp at hm
  | cons a0 rest ih =>
    intro init a hm hdoc
    rcases List.mem_cons.mp hm with heq | hmem
    · subst heq
      simp only [docFold, List.foldl_cons, hdoc, if_true]
      exact le_trans (docFold_le_init rest _) (Nat.min_le_right _ _)
    · simp only [docFold, List.foldl_cons]
      by_cases ha : a0.isDoc <;> simp only [ha, if_true, if_false] <;>
        exact ih _ a hmem hdoc

theorem docFold_eq_or : ∀ (attrs : List DeclAttr) (init : Nat),
    docFold init attrs = init ∨
      ∃ a ∈ attrs, a.isDoc = true ∧ docFold init attrs = a.startLine := by
  intro attrs
  induction attrs with
  | nil => intro init; exact Or.inl rfl
  | cons a0 rest ih =>
    intro init
    by_cases ha : a0.isDoc
    · have hstep : docFold init (a0 :: rest) = docFold (min init a0.startLine) rest := by
        simp [docFold, ha]
      rw [hstep]
      rcases Nat.le_total init a0.startLine with hle | hle
      · rw [Nat.min_eq_left hle]
        rcases ih init with heq | ⟨a, hm, hd, he⟩
        · exact Or.inl heq
        · exact Or.inr ⟨a, by simp [hm], hd, he⟩
      · rw [Nat.min_eq_right hle]
        rcases ih a0.startLine with heq | ⟨a, hm, hd, he⟩
        · exact Or.inr ⟨a0, by simp, ha, heq⟩
        · exact Or.inr ⟨a, by simp [hm], hd, he⟩
    · have hstep : docFold init (a0 :: rest) = docFold init rest := by
        simp [docFold, ha]
      rw [hstep]
      rcases ih init with heq | ⟨a, hm, hd, he⟩
      · exact Or.inl heq
      · exact Or.inr ⟨a, by simp [hm], hd, he⟩

theorem docFold_pos : ∀ (attrs : List DeclAttr) (init : Nat), 1 ≤ init →
    (∀ a ∈ attrs, a.isDoc = true → 1 ≤ a.startLine) → 1 ≤ docFold init attrs := by
  intro attrs
  induction attrs with
  | nil => intro init h _; simpa [docFold] using h
  | cons a0 rest ih =>
    intro init h hall
    by_cases ha : a0.isDoc
    · have hstep : docFold init (a0 :: rest) = docFold (min init a0.startLine) rest := by
        simp [docFold, ha]
      rw [hstep]
      have ha0 := hall a0 (by simp) ha
      exact ih _ (le_min h ha0) (fun a hm hd => hall a (by simp [hm]) hd)
    · have hstep : docFold init (a0 :: rest) = docFold init rest := by
        simp [docFold, ha]
      rw [hstep]
      exact ih init h (fun a hm hd => hall a (by simp [hm]) hd)

theorem insertItemInto_lookup (m : AList String (List Item)) (item : Item) :
    ∃ l, lookupA (insertItemInto m item) (strToLower item.name) = some l ∧
      l.getLast? = some item := by
  unfold insertItemInto
  rw [lookupA_entryModify_self]
  cases hold : lookupA m (strToLower item.name) with
  | none => exact ⟨[item], rfl, rfl⟩
  | some l0 => exact ⟨l0 ++ [item], rfl, by simp⟩

/-- C7 (confirmed): under the span guarantees of the parser (1-based lines,
`start ≤ end`, doc attributes on 1-based lines), every item built by
`create_item` has `start_line` equal to the minimum of the declaration's own
start line and its doc attributes' start lines (characterised as: a lower
bound on all of them that is attained), `end_line` equal to the
declaration's end line, satisfies `1 ≤ start_line ≤ end_line`, and the
struct visitor pushes it into the struct map under the lowercased name. -/
theorem c7_create_item (file : RPath) (idx : SearchIndexMut) (d : DeclInput)
    (h1 : 1 ≤ d.spanStart) (h2 : d.spanStart ≤ d.spanEnd)
    (h3 : ∀ a ∈ d.attrs, a.isDoc = true → 1 ≤ a.startLine) :
    ((createItem file d.name .struct d.spanStart d.spanEnd d.attrs).line_range.1 ≤
        d.spanStart ∧
      (∀ a ∈ d.attrs, a.isDoc = true →
        (createItem file d.name .struct d.spanStart d.spanEnd d.attrs).line_range.1 ≤
          a.startLine) ∧
      ((createItem file d.name .struct d.spanStart d.spanEnd d.attrs).line_range.1 =
          d.spanStart ∨
        ∃ a ∈ d.attrs, a.isDoc = true ∧
          (createItem file d.name .struct d.spanStart d.spanEnd d.attrs).line_range.1 =
            a.startLine) ∧
      (createItem file d.name .struct d.spanStart d.spanEnd d.attrs).line_range.2 =
        d.spanEnd ∧
      1 ≤ (createItem file d.name .struct d.spanStart d.spanEnd d.attrs).line_range.1 ∧
      (createItem file d.name .struct d.spanStart d.spanEnd d.attrs).line_range.1 ≤
        (createItem file d.name .struct d.spanStart d.spanEnd d.attrs).line_range.2) ∧
    ∃ l, lookupA (visitItemStruct idx file d).structs (strToLower d.name) = some l ∧
      l.getLast? = some (createItem file d.name .struct d.spanStart d.spanEnd d.attrs) := by
  have hpos : 1 ≤ docFold d.spanStart d.attrs := docFold_pos d.attrs d.spanStart h1 h3
  have hne : ¬ docFold d.spanStart d.attrs = 0 := by omega
  have hend : ¬ d.spanEnd = 0 := by omega
  have hstart : (createItem file d.name .struct d.spanStart d.spanEnd d.attrs).line_range.1 =
      docFold d.spanStart d.attrs := by
    simp [createItem, hne]
  have hend2 : (createItem file d.name .struct d.spanStart d.spanEnd d.attrs).line_range.2 =
      d.spanEnd := by
    simp [createItem, hend]
  constructor
  · refine ⟨?_, ?_, ?_, hend2, ?_, ?_⟩
    · rw [hstart]; exact docFold_le_init d.attrs d.spanStart
    · intro a hm hd
      rw [hstart]
      exact docFold_le_doc d.attrs d.spanStart a hm hd
    · rw [hstart]
      exact docFold_eq_or d.attrs d.spanStart
    · rw [hstart]; exact hpos
    · rw [hstart, hend2]
      exact le_trans (docFold_le_init d.attrs d.spanStart) h2
  · exact insertItemInto_lookup idx.structs
      (createItem file d.name .struct d.spanStart d.spanEnd d.attrs)

theorem c7_create_item_witness :
    (createItem ["m.rs"] "Foo" .struct 5 9 [⟨true, 3⟩, ⟨false, 1⟩]).line_range.2 = 9 ∧
    1 ≤ (createItem ["m.rs"] "Foo" .struct 5 9 [⟨true, 3⟩, ⟨false, 1⟩]).line_range.1 ∧
    ∃ l, lookupA (visitItemStruct SearchIndexMut.empty ["m.rs"]
        ⟨"Foo", 5, 9, [⟨true, 3⟩, ⟨false, 1⟩]⟩).structs (strToLower "Foo") = some l ∧
      l.getLast? = some (createItem ["m.rs"] "Foo" .struct 5 9 [⟨true, 3⟩, ⟨false, 1⟩]) :=
  ⟨((c7_create_item ["m.rs"] SearchIndexMut.empty ⟨"Foo", 5, 9, [⟨true, 3⟩, ⟨false, 1⟩]⟩
      (by decide) (by decide) (by decide)).1).2.2.2.1,
   ((c7_create_item ["m.rs"] SearchIndexMut.empty ⟨"Foo", 5, 9, [⟨true, 3⟩, ⟨false, 1⟩]⟩
      (by decide) (by decide) (by decide)).1).2.2.2.2.1,
   (c7_create_item ["m.rs"] SearchIndexMut.empty ⟨"Foo", 5, 9, [⟨true, 3⟩, ⟨false, 1⟩]⟩
      (by decide) (by decide) (by decide)).2⟩

end RustAssistant
